import Mathlib

/-!
Verification of the hierarchical todo application's task-hierarchy engine
(`backend/models.py` and `backend/api.py`).

The SQLAlchemy task table is embedded as a list of `Task` records; an
operation that mutates rows becomes a function from the table to the table.
Timestamps are abstracted to natural numbers (`datetime.utcnow()` becomes a
`now` parameter); `NULL`able columns become `Option`.  Recursive walks over
the parent/child graph carry an explicit fuel argument, since the Python
source relies on the data being acyclic for termination; every theorem below
holds for an arbitrary fuel value or states its fuel requirement explicitly.
-/

namespace Todo

/-- A row of the `task` table (`backend/models.py`, class `Task`). -/
structure Task where
  id : Nat
  title : String
  description : String
  completed : Bool
  urgency : String
  completedAt : Option Nat
  userId : Nat
  listId : Nat
  parentId : Option Nat
deriving DecidableEq

/-- A row of the `todo_list` table (`backend/models.py`, class `TodoList`);
only the columns the task engine consults. -/
structure TodoList where
  id : Nat
  name : String
  userId : Nat
deriving DecidableEq

/-- The task table. -/
abbrev Db := List Task

/-- `Task.query.filter_by(id=tid).first()`. -/
def findTask (db : Db) (tid : Nat) : Option Task :=
  db.find? (fun t => t.id == tid)

/-- `Task.query.filter_by(id=tid, user_id=u).first()`. -/
def findTaskBy (db : Db) (tid u : Nat) : Option Task :=
  db.find? (fun t => t.id == tid && t.userId == u)

/-- `TodoList.query.filter_by(id=lid, user_id=u).first()`. -/
def findListBy (ls : List TodoList) (lid u : Nat) : Option TodoList :=
  ls.find? (fun l => l.id == lid && l.userId == u)

/-- The stored parent pointer of the row with id `x` (`task.parent_id`). -/
def parentOfId (db : Db) (x : Nat) : Option Nat :=
  (findTask db x).bind (·.parentId)

/-- The stored completion flag of the row with id `x`. -/
def completedOf (db : Db) (x : Nat) : Option Bool :=
  (findTask db x).map (·.completed)

/-- Update the row with id `tid` by `f`, leaving every other row unchanged
(the effect of mutating one ORM object in the session). -/
def upd (f : Task → Task) (db : Db) (tid : Nat) : Db :=
  db.map (fun t => if t.id = tid then f t else t)

/-- Field effect of `mark_completed` on one row:
`self.completed = True; self.completed_at = datetime.utcnow()`. -/
def setCF (now : Nat) (t : Task) : Task :=
  { t with completed := true, completedAt := some now }

/-- Field effect of `mark_incomplete` (and of `uncheck_all_tasks`) on one
row: `completed = False; completed_at = None`. -/
def clearCF (t : Task) : Task :=
  { t with completed := false, completedAt := none }

/-- Field effect of moving one row to another list: `list_id = new_list_id`. -/
def setLF (nl : Nat) (t : Task) : Task :=
  { t with listId := nl }

/-- Ids of the direct children of `tid`: the `Task.children` relationship
(all rows whose `parent_id` is `tid`, in table order). -/
def childIds (db : Db) (tid : Nat) : List Nat :=
  (db.filter (fun t => t.parentId == some tid)).map (·.id)

/-- `Task.get_depth` (`models.py`): `0` if the resolved parent is `None`,
else one more than the parent's depth.  `none` means the fuel ran out, which
on acyclic data cannot happen for `fuel > db.length`. -/
def get_depth : Nat → Db → Nat → Option Nat
  | 0, _, _ => none
  | fuel+1, db, tid =>
    match (findTask db tid).bind (fun t => t.parentId.bind (findTask db)) with
    | none => some 0
    | some p => (get_depth fuel db p.id).map (· + 1)

/-- `Task.is_ancestor_of` (`models.py`): walk upward from `other`'s parent,
returning `true` as soon as a chain member's id equals `selfId`. -/
def is_ancestor_of : Nat → Db → Nat → Task → Bool
  | 0, _, _, _ => false
  | fuel+1, db, selfId, other =>
    match other.parentId.bind (findTask db) with
    | none => false
    | some p => if p.id = selfId then true else is_ancestor_of fuel db selfId p

/-- `Task.get_all_descendants` (`models.py`): preorder list of all
descendant ids (children first, each followed by its own descendants). -/
def get_all_descendants : Nat → Db → Nat → List Nat
  | 0, _, _ => []
  | fuel+1, db, tid =>
    (childIds db tid).foldl (fun acc cid => acc ++ cid :: get_all_descendants fuel db cid) []

/-- `Task.mark_completed` (`models.py`), instrumented: besides the updated
table it returns the list of ids of the rows it set completed.  The row is
stamped, then each child that is not already completed (read from the
current state, as the Python loop does) is recursively cascaded. -/
def mark_completed (now : Nat) : Nat → Db → Nat → Bool → Db × List Nat
  | _, db, tid, false => (upd (setCF now) db tid, [tid])
  | 0, db, tid, true => (upd (setCF now) db tid, [tid])
  | fuel+1, db, tid, true =>
    let db1 := upd (setCF now) db tid
    (childIds db1 tid).foldl
      (fun acc cid =>
        match findTask acc.1 cid with
        | some c =>
          if c.completed then acc
          else
            let r := mark_completed now fuel acc.1 cid true
            (r.1, acc.2 ++ r.2)
        | none => acc)
      (db1, [tid])

/-- One `mark_incomplete` call with `cascade=False` (`models.py`): it only
clears the row's `completed`/`completed_at`. -/
def clearRow (db : Db) (tid : Nat) : Db := upd clearCF db tid

/-- `Task.mark_incomplete` (`models.py`): clear the row; with `cascade` on,
if the resolved parent exists and is completed, clear it too — the source
does so through a recursive call passing `cascade=False`, which is exactly
one `clearRow`, so the upward walk stops at the immediate parent. -/
def mark_incomplete (db : Db) (tid : Nat) (cascade : Bool) : Db :=
  if cascade then
    let db1 := clearRow db tid
    match (findTask db1 tid).bind (fun t => t.parentId.bind (findTask db1)) with
    | some p => if p.completed then clearRow db1 p.id else db1
    | none => db1
  else clearRow db tid

/-- Python's `str.strip()`: drop whitespace from both ends.  (Defined over
the character list so that it evaluates by kernel reduction.) -/
def strip (s : String) : String :=
  ⟨((s.data.dropWhile (·.isWhitespace)).reverse.dropWhile (·.isWhitespace)).reverse⟩

/-- An error response of the routing layer: message and HTTP status, as
produced by `jsonify({"error": msg}), status` in `backend/api.py`. -/
structure ApiErr where
  msg : String
  status : Nat
deriving DecidableEq

/-- Projection: the error of a response, if any. -/
def errOf : Except ApiErr Db → Option ApiErr
  | .ok _ => none
  | .error e => some e

/-- The table after a request: the new table on success, the unchanged
table on an error response (errors are returned before any mutation, and
exceptions roll the session back). -/
def resDb (db : Db) : Except ApiErr Db → Db
  | .ok d => d
  | .error _ => db

/-- Body of a `POST /tasks` request (`create_task`), after JSON parsing;
`description` and `urgency` carry their `data.get` defaults. -/
structure TaskReq where
  title : String
  listId : Nat
  description : String
  urgency : String
  parentId : Option Nat
deriving DecidableEq

/-- Body of a `POST /tasks/<parent_id>/subtasks` request (`create_subtask`). -/
structure SubtaskReq where
  title : String
  description : String
  urgency : String
deriving DecidableEq

/-- Body of a `PUT /tasks/<task_id>` request (`update_task`): each field is
present or absent. -/
structure UpdateReq where
  title : Option String
  description : Option String
  urgency : Option String
  completed : Option Bool
deriving DecidableEq

/-- `create_task` (`api.py`): requires a non-empty trimmed title and a list
owned by the caller; stores the caller-supplied `list_id` and `parent_id`
without validating the parent in any way.  `newId` is the id the store
assigns to the inserted row. -/
def create_task (db : Db) (ls : List TodoList) (u : Nat) (req : TaskReq)
    (newId : Nat) : Except ApiErr Db :=
  let title := strip req.title
  if title = "" then .error ⟨"Task title cannot be empty", 400⟩
  else
    match findListBy ls req.listId u with
    | none => .error ⟨"List not found", 404⟩
    | some _ =>
      .ok (db ++ [{ id := newId, title := title, description := req.description,
                    completed := false, urgency := req.urgency, completedAt := none,
                    userId := u, listId := req.listId, parentId := req.parentId }])

/-- `create_subtask` (`api.py`): looks up the parent, validates the title,
rejects when the parent's depth is at least 5, and otherwise inserts a row
whose `list_id` is inherited from the parent.  A parent whose stored chain
is cyclic would make the source diverge in `get_depth`; that (unreachable)
case is modelled as the depth rejection. -/
def create_subtask (db : Db) (u parentId : Nat) (req : SubtaskReq)
    (newId : Nat) : Except ApiErr Db :=
  match findTaskBy db parentId u with
  | none => .error ⟨"Parent task not found", 404⟩
  | some parent =>
    let title := strip req.title
    if title = "" then .error ⟨"Task title cannot be empty", 400⟩
    else
      match get_depth (db.length + 1) db parent.id with
      | none => .error ⟨"Maximum nesting depth reached", 400⟩
      | some d =>
        if 5 ≤ d then .error ⟨"Maximum nesting depth reached", 400⟩
        else
          .ok (db ++ [{ id := newId, title := title, description := req.description,
                        completed := false, urgency := req.urgency, completedAt := none,
                        userId := u, listId := parent.listId, parentId := some parentId }])

/-- `move_task` (`api.py`): re-parent `tid` under `newParentId` (or make it
top-level).  Validates, in source order: the new parent exists and is owned
by the caller; the moved task is not an ancestor of the new parent; the new
parent's depth is below 5; both tasks are in the same list. -/
def move_task (db : Db) (u tid : Nat) (newParentId : Option Nat) : Except ApiErr Db :=
  match findTaskBy db tid u with
  | none => .error ⟨"Task not found", 404⟩
  | some task =>
    match newParentId with
    | none => .ok (upd (fun t => { t with parentId := none }) db tid)
    | some npid =>
      match findTaskBy db npid u with
      | none => .error ⟨"New parent task not found", 404⟩
      | some newParent =>
        if is_ancestor_of db.length db task.id newParent then
          .error ⟨"Cannot move task to descendant", 400⟩
        else
          match get_depth (db.length + 1) db newParent.id with
          | none => .error ⟨"Maximum nesting depth reached", 400⟩
          | some d =>
            if 5 ≤ d then .error ⟨"Maximum nesting depth reached", 400⟩
            else if task.listId ≠ newParent.listId then
              .error ⟨"Cannot move task to different list", 400⟩
            else .ok (upd (fun t => { t with parentId := some npid }) db tid)

/-- The helper `update_descendants_list_id` nested in `move_task_to_list`
(`api.py`), instrumented with the list of row ids it touches: set the row's
`list_id`, then recurse into each child. -/
def update_descendants_list_id (nl : Nat) : Nat → Db → Nat → Db × List Nat
  | 0, db, tid => (upd (setLF nl) db tid, [tid])
  | fuel+1, db, tid =>
    let db1 := upd (setLF nl) db tid
    (childIds db1 tid).foldl
      (fun acc cid =>
        let r := update_descendants_list_id nl fuel acc.1 cid
        (r.1, acc.2 ++ r.2))
      (db1, [tid])

/-- `move_task_to_list` (`api.py`): only a top-level task owned by the
caller may move, the destination list must be owned by the caller, and on
success the task's whole subtree gets the new `list_id`. -/
def move_task_to_list (db : Db) (ls : List TodoList) (u tid newListId : Nat) :
    Except ApiErr Db :=
  match findTaskBy db tid u with
  | none => .error ⟨"Task not found", 404⟩
  | some task =>
    if task.parentId ≠ none then
      .error ⟨"Only top-level tasks can be moved between lists", 400⟩
    else
      match findListBy ls newListId u with
      | none => .error ⟨"Destination list not found", 404⟩
      | some _ => .ok (update_descendants_list_id newListId db.length db tid).1

/-- `complete_all_tasks` (`api.py`): over the list's top-level tasks (read
once), call `mark_completed(cascade=True)` on each one that is not already
completed at the time it is reached. -/
def complete_all_tasks (db : Db) (ls : List TodoList) (u listId now : Nat) :
    Except ApiErr Db :=
  match findListBy ls listId u with
  | none => .error ⟨"List not found", 404⟩
  | some _ =>
    let tops := (db.filter (fun t => t.listId == listId && t.userId == u &&
                                     t.parentId == none)).map (·.id)
    .ok (tops.foldl
      (fun acc tid =>
        match findTask acc tid with
        | some t => if t.completed then acc else (mark_completed now acc.length acc tid true).1
        | none => acc)
      db)

/-- `uncheck_all_tasks` (`api.py`): clear `completed`/`completed_at` on
every task of the list owned by the caller, directly, with no cascading. -/
def uncheck_all_tasks (db : Db) (ls : List TodoList) (u listId : Nat) :
    Except ApiErr Db :=
  match findListBy ls listId u with
  | none => .error ⟨"List not found", 404⟩
  | some _ =>
    .ok (db.map (fun t => if t.listId == listId && t.userId == u then clearCF t else t))

/-- Tail of `update_task` after the title step: apply `description`, then
`urgency` (silently ignored unless in the fixed enum), then delegate
`completed` toggling to the cascading marks. -/
def updateRest (db : Db) (tid : Nat) (req : UpdateReq) (now : Nat) : Db :=
  let db2 := match req.description with
    | some d => upd (fun t => { t with description := d }) db tid
    | none => db
  let db3 := match req.urgency with
    | some urg =>
      if urg = "low" ∨ urg = "medium" ∨ urg = "high" ∨ urg = "urgent" then
        upd (fun t => { t with urgency := urg }) db2 tid
      else db2
    | none => db2
  match req.completed with
  | some true => (mark_completed now db3.length db3 tid true).1
  | some false => mark_incomplete db3 tid true
  | none => db3

/-- `update_task` (`api.py`): partial update of a task owned by the caller;
a present-but-empty title is rejected before any mutation. -/
def update_task (db : Db) (u tid : Nat) (req : UpdateReq) (now : Nat) :
    Except ApiErr Db :=
  match findTaskBy db tid u with
  | none => .error ⟨"Task not found", 404⟩
  | some _ =>
    match req.title with
    | some s =>
      if strip s = "" then .error ⟨"Task title cannot be empty", 400⟩
      else .ok (updateRest (upd (fun t => { t with title := strip s }) db tid) tid req now)
    | none => .ok (updateRest db tid req now)

/-- `a` appears somewhere in `x`'s stored parent chain (the semantic
ancestor relation over the table). -/
inductive Anc (db : Db) : Nat → Nat → Prop
  | parent {a x : Nat} : parentOfId db x = some a → Anc db a x
  | step {a p x : Nat} : parentOfId db x = some p → Anc db a p → Anc db a x

/-- `a` is reached from `x` in exactly `n` upward parent steps. -/
inductive AncN (db : Db) : Nat → Nat → Nat → Prop
  | one {a x : Nat} : parentOfId db x = some a → AncN db a x 1
  | succ {a p x n : Nat} : parentOfId db x = some p → AncN db a p n → AncN db a x (n+1)

/-- `x` is reachable from `root` by downward child steps each of which was
not yet completed in `db` — exactly the rows the completion cascade visits. -/
inductive CReach (db : Db) (root : Nat) : Nat → Prop
  | root : CReach db root root
  | step {x p : Nat} : CReach db root p → parentOfId db x = some p →
      completedOf db x = some false → CReach db root x

/-- `CReach`, with the number of downward steps counted. -/
inductive CReachN (db : Db) (root : Nat) : Nat → Nat → Prop
  | root : CReachN db root root 0
  | step {x p k : Nat} : CReachN db root p k → parentOfId db x = some p →
      completedOf db x = some false → CReachN db root x (k + 1)

/-- Pointwise description of a table transformation: the rows with ids in
`vis` are mapped by `F`, every other row is unchanged. -/
def Pt (F : Task → Task) (db db' : Db) (vis : List Nat) : Prop :=
  ∀ x, findTask db' x = if x ∈ vis then (findTask db x).map F else findTask db x

/-- The table is obtained by independently either keeping or `F`-updating
each row. -/
def ChoiceMap (F : Task → Task) (db db' : Db) : Prop :=
  ∃ g : Task → Task, (∀ t, g t = t ∨ g t = F t) ∧ db' = db.map g

/-- The completion invariant of one row: `completed` is true exactly when
`completed_at` is set. -/
def okTask (t : Task) : Prop := t.completed = true ↔ t.completedAt ≠ none

/-- The completion invariant of the whole table. -/
def invDb (db : Db) : Prop := ∀ t ∈ db, okTask t

instance (t : Task) : Decidable (okTask t) :=
  decidable_of_iff (t.completed = true ↔ t.completedAt ≠ none) Iff.rfl

instance (db : Db) : Decidable (invDb db) :=
  List.decidableBAll okTask db

/-- One engine operation, as dispatched by the service layer. -/
inductive Op where
  | opMarkCompleted (tid now : Nat)
  | opMarkIncomplete (tid : Nat)
  | opCompleteAll (ls : List TodoList) (u listId now : Nat)
  | opUncheckAll (ls : List TodoList) (u listId : Nat)
  | opCreateTask (ls : List TodoList) (u : Nat) (req : TaskReq) (newId : Nat)
  | opCreateSubtask (u pid : Nat) (req : SubtaskReq) (newId : Nat)
  | opUpdateTask (u tid : Nat) (req : UpdateReq) (now : Nat)

/-- Run one operation against the table (errors leave it unchanged). -/
def applyOp (db : Db) : Op → Db
  | .opMarkCompleted tid now => (mark_completed now db.length db tid true).1
  | .opMarkIncomplete tid => mark_incomplete db tid true
  | .opCompleteAll ls u listId now => resDb db (complete_all_tasks db ls u listId now)
  | .opUncheckAll ls u listId => resDb db (uncheck_all_tasks db ls u listId)
  | .opCreateTask ls u req newId => resDb db (create_task db ls u req newId)
  | .opCreateSubtask u pid req newId => resDb db (create_subtask db u pid req newId)
  | .opUpdateTask u tid req now => resDb db (update_task db u tid req now)

/-- A concrete task row: id, parent, completed flag, completion stamp, list. -/
def mkT (i : Nat) (pid : Option Nat) (c : Bool) (ca : Option Nat) (lid : Nat) : Task :=
  { id := i, title := "t", description := "", completed := c, urgency := "medium",
    completedAt := ca, userId := 1, listId := lid, parentId := pid }

/-- Three-task chain 1 ← 2 ← 3, all completed. -/
def exChainUp : Db :=
  [mkT 1 none true (some 5) 1, mkT 2 (some 1) true (some 5) 1, mkT 3 (some 2) true (some 5) 1]

/-- Five-task chain 1 ← 2 ← 3 ← 4 ← 5 at depths 0..4, all incomplete. -/
def exChain5 : Db :=
  [mkT 1 none false none 1, mkT 2 (some 1) false none 1, mkT 3 (some 2) false none 1,
   mkT 4 (some 3) false none 1, mkT 5 (some 4) false none 1]

/-- Six-task chain at depths 0..5. -/
def exDeep6 : Db := exChain5 ++ [mkT 6 (some 5) false none 1]

/-- A single top-level task. -/
def exSelf : Db := [mkT 1 none false none 1]

/-- Parent 1 (incomplete) with completed child 2, incomplete grandchild 3
under 2, and incomplete child 4. -/
def exSkip : Db :=
  [mkT 1 none false none 1, mkT 2 (some 1) true (some 7) 1, mkT 3 (some 2) false none 1,
   mkT 4 (some 1) false none 1]

/-- Top-level task 1 with children 2 and 3, plus unrelated top-level 4. -/
def exTwoKids : Db :=
  [mkT 1 none false none 1, mkT 2 (some 1) false none 1, mkT 3 (some 1) false none 1,
   mkT 4 none false none 1]

/-- Top-level 1 with completed child 2 in list 1. -/
def exBulk : Db := [mkT 1 none false none 1, mkT 2 (some 1) true (some 4) 1]

/-- Completed top-level 1 with incomplete child 2, and incomplete top-level 3. -/
def exFrame : Db := [mkT 1 none true (some 3) 1, mkT 2 (some 1) false none 1, mkT 3 none false none 1]

/-- Two lists owned by user 1. -/
def exLists : List TodoList := [⟨1, "a", 1⟩, ⟨2, "b", 1⟩]

/-! ## Basic lookup and row-update lemmas -/

theorem findTask_id {db : Db} {x : Nat} {t : Task} (h : findTask db x = some t) :
    t.id = x := by
  have := List.find?_some h
  simpa using this

theorem findTask_mem {db : Db} {x : Nat} {t : Task} (h : findTask db x = some t) :
    t ∈ db :=
  List.mem_of_find?_eq_some h

theorem findTaskBy_id {db : Db} {x u : Nat} {t : Task} (h : findTaskBy db x u = some t) :
    t.id = x ∧ t.userId = u := by
  have := List.find?_some h
  simpa using this

theorem findTaskBy_mem {db : Db} {x u : Nat} {t : Task} (h : findTaskBy db x u = some t) :
    t ∈ db :=
  List.mem_of_find?_eq_some h

theorem findTask_map (db : Db) (g : Task → Task) (hg : ∀ t, (g t).id = t.id) (x : Nat) :
    findTask (db.map g) x = (findTask db x).map g := by
  induction db with
  | nil => rfl
  | cons a l ih =>
    simp only [findTask, List.map_cons, List.find?] at *
    rw [hg a]
    cases a.id == x
    · exact ih
    · rfl

theorem findTask_nodup {db : Db} (hnd : (db.map (·.id)).Nodup) {t : Task}
    (ht : t ∈ db) : findTask db t.id = some t := by
  induction db with
  | nil => cases ht
  | cons a l ih =>
    simp only [List.map_cons, List.nodup_cons] at hnd
    rcases List.mem_cons.1 ht with h | h
    · subst h
      simp [findTask, List.find?]
    · have hne : a.id ≠ t.id := by
        intro he
        exact hnd.1 (he ▸ List.mem_map_of_mem (·.id) h)
      simp only [findTask, List.find?]
      have : (a.id == t.id) = false := by simpa using hne
      rw [this]
      exact ih hnd.2 h

theorem upd_eq_map (f : Task → Task) (db : Db) (tid : Nat) :
    upd f db tid = db.map (fun t => if t.id = tid then f t else t) := rfl

theorem findTask_upd (f : Task → Task) (hf : ∀ t, (f t).id = t.id)
    (db : Db) (tid x : Nat) :
    findTask (upd f db tid) x = if x = tid then (findTask db x).map f else findTask db x := by
  rw [upd_eq_map, findTask_map]
  · cases h : findTask db x with
    | none => cases Decidable.em (x = tid) with
      | inl he => simp [he]
      | inr he => simp [he]
    | some t =>
      have hid := findTask_id h
      cases Decidable.em (x = tid) with
      | inl he => simp [he, hid]
      | inr he => simp [he, hid]
  · intro t
    by_cases h : t.id = tid <;> simp [h, hf]

/-! ## The pointwise-update predicate `Pt` -/

theorem Pt_rfl (F : Task → Task) (db : Db) : Pt F db db [] := by
  intro x; simp

theorem Pt_upd (F : Task → Task) (hF : ∀ t, (F t).id = t.id) (db : Db) (tid : Nat) :
    Pt F db (upd F db tid) [tid] := by
  intro x
  rw [findTask_upd F hF]
  simp

theorem Pt_trans {F : Task → Task} (hF : ∀ t, F (F t) = F t) {a b c : Db}
    {v1 v2 : List Nat} (h1 : Pt F a b v1) (h2 : Pt F b c v2) :
    Pt F a c (v1 ++ v2) := by
  intro x
  rw [h2 x, h1 x]
  by_cases m1 : x ∈ v1 <;> by_cases m2 : x ∈ v2 <;>
    simp [m1, m2, List.mem_append] <;>
    cases ho : findTask a x <;> simp [hF]

/-! ## The either-keep-or-update shape `ChoiceMap` -/

theorem ChoiceMap_rfl (F : Task → Task) (db : Db) : ChoiceMap F db db :=
  ⟨id, fun _ => Or.inl rfl, (List.map_id db).symm⟩

theorem ChoiceMap_upd (F : Task → Task) (db : Db) (tid : Nat) :
    ChoiceMap F db (upd F db tid) := by
  refine ⟨fun t => if t.id = tid then F t else t, fun t => ?_, rfl⟩
  by_cases h : t.id = tid <;> simp [h]

theorem ChoiceMap_trans {F : Task → Task} (hF : ∀ t, F (F t) = F t) {a b c : Db}
    (h1 : ChoiceMap F a b) (h2 : ChoiceMap F b c) : ChoiceMap F a c := by
  obtain ⟨g1, hg1, rfl⟩ := h1
  obtain ⟨g2, hg2, rfl⟩ := h2
  refine ⟨g2 ∘ g1, fun t => ?_, (List.map_map g2 g1 a)⟩
  rcases hg1 t with h | h
  · rcases hg2 t with h2 | h2
    · exact Or.inl (by simp [Function.comp, h, h2])
    · exact Or.inr (by simp [Function.comp, h, h2])
  · rcases hg2 (F t) with h2 | h2
    · exact Or.inr (by simp [Function.comp, h, h2])
    · exact Or.inr (by simp [Function.comp, h, h2, hF])

theorem ChoiceMap_find {F : Task → Task} (hid : ∀ t, (F t).id = t.id) {db db' : Db}
    (h : ChoiceMap F db db') (x : Nat) :
    ∃ g : Task → Task, (∀ t, g t = t ∨ g t = F t) ∧
      findTask db' x = (findTask db x).map g := by
  obtain ⟨g, hg, rfl⟩ := h
  refine ⟨g, hg, findTask_map db g (fun t => ?_) x⟩
  rcases hg t with h | h <;> simp [h, hid]

theorem ChoiceMap_parentOf {F : Task → Task} (hid : ∀ t, (F t).id = t.id)
    (hpid : ∀ t, (F t).parentId = t.parentId) {db db' : Db}
    (h : ChoiceMap F db db') (x : Nat) : parentOfId db' x = parentOfId db x := by
  obtain ⟨g, hg, hfind⟩ := ChoiceMap_find hid h x
  rw [parentOfId, hfind, parentOfId]
  cases findTask db x with
  | none => rfl
  | some t => rcases hg t with h | h <;> simp [h, hpid]

theorem ChoiceMap_nodup {F : Task → Task} (hid : ∀ t, (F t).id = t.id) {db db' : Db}
    (h : ChoiceMap F db db') (hnd : (db.map (·.id)).Nodup) :
    (db'.map (·.id)).Nodup := by
  obtain ⟨g, hg, rfl⟩ := h
  rw [List.map_map]
  have : ((·.id) ∘ g : Task → Nat) = (·.id) := by
    funext t
    rcases hg t with h | h <;> simp [Function.comp, h, hid]
  rw [this]
  exact hnd

theorem ChoiceMap_length {F : Task → Task} {db db' : Db}
    (h : ChoiceMap F db db') : db'.length = db.length := by
  obtain ⟨g, _, rfl⟩ := h
  exact List.length_map db g

/-! ## Generic fold lemmas -/

theorem foldl_snd_sub (step : Db × List Nat → Nat → Db × List Nat)
    (hstep : ∀ p c, ∃ v, (step p c).2 = p.2 ++ v) :
    ∀ (l : List Nat) (p : Db × List Nat) (x : Nat), x ∈ p.2 → x ∈ (l.foldl step p).2 := by
  intro l
  induction l with
  | nil => intro p x hx; exact hx
  | cons c l ih =>
    intro p x hx
    apply ih
    obtain ⟨v, hv⟩ := hstep p c
    rw [hv]
    exact List.mem_append_left v hx

theorem foldl_pt {F : Task → Task} (hF : ∀ t, F (F t) = F t)
    (step : Db × List Nat → Nat → Db × List Nat)
    (hstep : ∀ p c, ∃ v, Pt F p.1 (step p c).1 v ∧ (step p c).2 = p.2 ++ v) :
    ∀ (l : List Nat) (p : Db × List Nat) (db : Db), Pt F db p.1 p.2 →
      Pt F db (l.foldl step p).1 (l.foldl step p).2 := by
  intro l
  induction l with
  | nil => intro p db h; exact h
  | cons c l ih =>
    intro p db h
    apply ih
    obtain ⟨v, hv1, hv2⟩ := hstep p c
    rw [hv2]
    exact Pt_trans hF h hv1

theorem foldl_choice {F : Task → Task} (hF : ∀ t, F (F t) = F t)
    (step : Db × List Nat → Nat → Db × List Nat)
    (hstep : ∀ p c, ChoiceMap F p.1 (step p c).1) :
    ∀ (l : List Nat) (p : Db × List Nat) (db : Db), ChoiceMap F db p.1 →
      ChoiceMap F db (l.foldl step p).1 := by
  intro l
  induction l with
  | nil => intro p db h; exact h
  | cons c l ih =>
    intro p db h
    exact ih (step p c) db (ChoiceMap_trans hF h (hstep p c))

theorem foldl_inv_mem {σ : Type} (step : σ → Nat → σ) (I : σ → Prop) :
    ∀ (l : List Nat), (∀ p c, c ∈ l → I p → I (step p c)) →
      ∀ p, I p → I (l.foldl step p) := by
  intro l
  induction l with
  | nil => intro _ p h; exact h
  | cons c l ih =>
    intro hstep p h
    exact ih (fun p c hc => hstep p c (List.mem_cons_of_mem _ hc)) (step p c)
      (hstep p c (List.mem_cons_self c l) h)

/-! ## `mark_completed`: shape, frame, and reach -/

theorem setCF_id (now : Nat) (t : Task) : (setCF now t).id = t.id := rfl

theorem setCF_idem (now : Nat) (t : Task) : setCF now (setCF now t) = setCF now t := rfl

theorem mark_completed_pt (now : Nat) :
    ∀ (fuel : Nat) (db : Db) (tid : Nat) (c : Bool),
      Pt (setCF now) db (mark_completed now fuel db tid c).1
        (mark_completed now fuel db tid c).2 := by
  intro fuel
  induction fuel with
  | zero =>
    intro db tid c
    cases c <;> exact Pt_upd (setCF now) (setCF_id now) db tid
  | succ n ih =>
    intro db tid c
    cases c
    · exact Pt_upd (setCF now) (setCF_id now) db tid
    · simp only [mark_completed]
      apply foldl_pt (setCF_idem now)
      · intro p cid
        cases hf : findTask p.1 cid with
        | none => exact ⟨[], by simp [hf, Pt_rfl]⟩
        | some ct =>
          by_cases hc : ct.completed
          · exact ⟨[], by simp [hf, hc, Pt_rfl]⟩
          · refine ⟨(mark_completed now n p.1 cid true).2, ?_, ?_⟩
            · simp only [hf, hc]
              simpa using ih p.1 cid true
            · simp [hf, hc]
      · exact Pt_upd (setCF now) (setCF_id now) db tid

theorem mark_completed_choice (now : Nat) :
    ∀ (fuel : Nat) (db : Db) (tid : Nat) (c : Bool),
      ChoiceMap (setCF now) db (mark_completed now fuel db tid c).1 := by
  intro fuel
  induction fuel with
  | zero =>
    intro db tid c
    cases c <;> exact ChoiceMap_upd (setCF now) db tid
  | succ n ih =>
    intro db tid c
    cases c
    · exact ChoiceMap_upd (setCF now) db tid
    · simp only [mark_completed]
      apply foldl_choice (setCF_idem now)
      · intro p cid
        cases hf : findTask p.1 cid with
        | none => simp [hf, ChoiceMap_rfl]
        | some ct =>
          by_cases hc : ct.completed
          · simp [hf, hc, ChoiceMap_rfl]
          · simp only [hf, hc]
            simpa using ih p.1 cid true
      · exact ChoiceMap_upd (setCF now) db tid

theorem mark_completed_root_mem (now : Nat) (fuel : Nat) (db : Db) (tid : Nat) (c : Bool) :
    tid ∈ (mark_completed now fuel db tid c).2 := by
  cases fuel with
  | zero => cases c <;> simp [mark_completed]
  | succ n =>
    cases c
    · simp [mark_completed]
    · simp only [mark_completed]
      apply foldl_snd_sub
      · intro p cid
        cases hf : findTask p.1 cid with
        | none => exact ⟨[], by simp [hf]⟩
        | some ct =>
          by_cases hc : ct.completed
          · exact ⟨[], by simp [hf, hc]⟩
          · exact ⟨(mark_completed now n p.1 cid true).2, by simp [hf, hc]⟩
      · simp

/-! ## The ancestor relation -/

theorem Anc_parent_some {db : Db} {a x : Nat} (h : Anc db a x) :
    ∃ p, parentOfId db x = some p := by
  cases h with
  | parent h => exact ⟨_, h⟩
  | step h _ => exact ⟨_, h⟩

theorem Anc_trans {db : Db} {a b x : Nat} (h1 : Anc db b x) (h2 : Anc db a b) :
    Anc db a x := by
  induction h1 with
  | parent h => exact Anc.step h h2
  | step h _ ih => exact Anc.step h ih

theorem Anc_congr {db db' : Db} (hp : ∀ y, parentOfId db' y = parentOfId db y)
    {a x : Nat} (h : Anc db' a x) : Anc db a x := by
  induction h with
  | parent h => exact Anc.parent (hp _ ▸ h)
  | step h _ ih => exact Anc.step (hp _ ▸ h) ih

theorem Anc_of_CReach {db : Db} {r x : Nat} (h : CReach db r x) :
    x = r ∨ Anc db r x := by
  induction h with
  | root => exact Or.inl rfl
  | step hr hpar _ ih =>
    rcases ih with he | ha
    · exact Or.inr (Anc.parent (he ▸ hpar))
    · exact Or.inr (Anc.step hpar ha)

theorem CReach_congr {db db' : Db} (hp : ∀ y, parentOfId db' y = parentOfId db y)
    (hc : ∀ y, completedOf db' y = some false → completedOf db y = some false)
    {r x : Nat} (h : CReach db' r x) : CReach db r x := by
  induction h with
  | root => exact CReach.root
  | step _ hpar hcf ih => exact CReach.step ih (hp _ ▸ hpar) (hc _ hcf)

theorem CReach_append {db : Db} {r c x : Nat} (h1 : CReach db c x)
    (h2 : CReach db r c) : CReach db r x := by
  induction h1 with
  | root => exact h2
  | step _ hpar hcf ih => exact CReach.step ih hpar hcf

theorem top_ancestor_unique {db : Db} {a b x : Nat} (h1 : Anc db a x)
    (h2 : Anc db b x) (ha : parentOfId db a = none) (hb : parentOfId db b = none) :
    a = b := by
  induction h1 with
  | parent h =>
    cases h2 with
    | parent h2p => rw [h] at h2p; exact Option.some_inj.1 h2p
    | step h2p hba =>
      rw [h] at h2p
      obtain ⟨q, hq⟩ := Anc_parent_some (Option.some_inj.1 h2p ▸ hba)
      rw [ha] at hq; cases hq
  | step h h1a ih =>
    cases h2 with
    | parent h2p =>
      rw [h] at h2p
      obtain ⟨q, hq⟩ := Anc_parent_some (Option.some_inj.1 h2p ▸ h1a)
      rw [hb] at hq; cases hq
    | step h2p hbp =>
      rw [h] at h2p
      exact ih (Option.some_inj.1 h2p ▸ hbp)

/-! ## Counted ancestor chains -/

theorem AncN_pos {db : Db} {a x n : Nat} (h : AncN db a x n) : 1 ≤ n := by
  cases h with
  | one _ => exact Nat.le_refl 1
  | succ _ _ => exact Nat.le_add_left 1 _

theorem Anc_iff_AncN {db : Db} {a x : Nat} : Anc db a x ↔ ∃ n, AncN db a x n := by
  constructor
  · intro h
    induction h with
    | parent h => exact ⟨1, AncN.one h⟩
    | step h _ ih => obtain ⟨n, hn⟩ := ih; exact ⟨n + 1, AncN.succ h hn⟩
  · rintro ⟨n, hn⟩
    induction hn with
    | one h => exact Anc.parent h
    | succ h _ ih => exact Anc.step h ih

theorem AncN_congr {db db' : Db} (hp : ∀ y, parentOfId db' y = parentOfId db y)
    {a x n : Nat} (h : AncN db' a x n) : AncN db a x n := by
  induction h with
  | one h => exact AncN.one (hp _ ▸ h)
  | succ h _ ih => exact AncN.succ (hp _ ▸ h) ih

/-- Decompose a counted chain at its top: either a single step, or a child
`c` of `a` through which the chain passes. -/
theorem AncN_top {db : Db} {a x n : Nat} (h : AncN db a x n) :
    (n = 1 ∧ parentOfId db x = some a) ∨
      ∃ c m, n = m + 1 ∧ parentOfId db c = some a ∧ AncN db c x m := by
  induction h with
  | one h => exact Or.inl ⟨rfl, h⟩
  | succ h hp ih =>
    rcases ih with ⟨he, hpa⟩ | ⟨c, m, he, hca, hcx⟩
    · exact Or.inr ⟨_, 1, by rw [he], hpa, AncN.one h⟩
    · exact Or.inr ⟨c, m + 1, by rw [he], hca, AncN.succ h hcx⟩

/-- A defined depth bounds the length of every upward chain from `x`. -/
theorem AncN_le_of_depth {fuel : Nat} :
    ∀ {db : Db} {x : Nat}, (get_depth fuel db x).isSome →
      ∀ {a n : Nat}, AncN db a x n → n ≤ fuel := by
  induction fuel with
  | zero => intro db x h; simp [get_depth] at h
  | succ f ih =>
    intro db x h a n hn
    cases hn with
    | one _ => exact Nat.succ_le_succ (Nat.zero_le f)
    | succ hpar hup =>
      rename_i p m
      obtain ⟨pt, hpt⟩ : ∃ pt, findTask db p = some pt := by
        cases hpt : findTask db p with
        | some pt => exact ⟨pt, rfl⟩
        | none =>
          obtain ⟨q, hq⟩ := Anc_parent_some (Anc_iff_AncN.2 ⟨m, hup⟩)
          rw [parentOfId, hpt] at hq
          cases hq
      obtain ⟨t, hts, htp⟩ : ∃ t, findTask db x = some t ∧ t.parentId = some p := by
        rw [parentOfId] at hpar
        cases hts : findTask db x with
        | none => rw [hts] at hpar; cases hpar
        | some t => rw [hts] at hpar; exact ⟨t, rfl, hpar⟩
      have hres : (findTask db x).bind (fun t => t.parentId.bind (findTask db)) = some pt := by
        rw [hts]
        simp [htp, hpt]
      rw [get_depth, hres] at h
      have hdp : (get_depth f db pt.id).isSome := by
        cases hd : get_depth f db pt.id with
        | none => simp [hd] at h
        | some _ => simp
      have hpid : pt.id = p := findTask_id hpt
      exact Nat.succ_le_succ (ih (hpid ▸ hdp) hup)

/-! ## Children under row updates -/

theorem childIds_map (db : Db) (g : Task → Task) (hid : ∀ t, (g t).id = t.id)
    (hpid : ∀ t, (g t).parentId = t.parentId) (pid : Nat) :
    childIds (db.map g) pid = childIds db pid := by
  induction db with
  | nil => rfl
  | cons a l ih =>
    simp only [childIds, List.map_cons, List.filter_cons, hpid a] at ih ⊢
    cases hpa : a.parentId == some pid with
    | true => simp only [if_true, List.map_cons, hid a, ih]
    | false => simpa using ih

theorem mem_childIds {db : Db} {tid cid : Nat} :
    cid ∈ childIds db tid ↔ ∃ t ∈ db, t.id = cid ∧ t.parentId = some tid := by
  simp only [childIds, List.mem_map, List.mem_filter, beq_iff_eq]
  constructor
  · rintro ⟨t, ⟨ht, hp⟩, hi⟩; exact ⟨t, ht, hi, hp⟩
  · rintro ⟨t, ht, hi, hp⟩; exact ⟨t, ⟨ht, hp⟩, hi⟩

theorem ChoiceMap_childIds {F : Task → Task} (hid : ∀ t, (F t).id = t.id)
    (hpid : ∀ t, (F t).parentId = t.parentId) {db db' : Db}
    (h : ChoiceMap F db db') (pid : Nat) : childIds db' pid = childIds db pid := by
  obtain ⟨g, hg, rfl⟩ := h
  refine childIds_map db g (fun t => ?_) (fun t => ?_) pid
  · rcases hg t with h | h <;> simp [h, hid]
  · rcases hg t with h | h <;> simp [h, hpid]

/-! ## Completion flags across `setCF` updates -/

theorem setCF_parentId (now : Nat) (t : Task) : (setCF now t).parentId = t.parentId := rfl

theorem ChoiceMap_completed_true {now : Nat} {db db' : Db}
    (h : ChoiceMap (setCF now) db db') (x : Nat)
    (hc : completedOf db x = some true) : completedOf db' x = some true := by
  obtain ⟨g, hg, hfind⟩ := ChoiceMap_find (setCF_id now) h x
  rw [completedOf, hfind]
  rw [completedOf] at hc
  cases hf : findTask db x with
  | none => rw [hf] at hc; cases hc
  | some t =>
    rw [hf] at hc
    have : t.completed = true := by simpa using hc
    rcases hg t with he | he <;> simp [he, this, setCF]

theorem ChoiceMap_completed_false_rev {now : Nat} {db db' : Db}
    (h : ChoiceMap (setCF now) db db') (x : Nat)
    (hc : completedOf db' x = some false) : completedOf db x = some false := by
  obtain ⟨g, hg, hfind⟩ := ChoiceMap_find (setCF_id now) h x
  rw [completedOf, hfind] at hc
  rw [completedOf]
  cases hf : findTask db x with
  | none => rw [hf] at hc; cases hc
  | some t =>
    rw [hf] at hc
    rcases hg t with he | he
    · simpa [he] using hc
    · simp [he, setCF] at hc

/-! ## `mark_completed` visits only not-yet-completed chains -/

theorem mark_completed_sound (now : Nat) :
    ∀ (fuel : Nat) (db : Db) (tid : Nat) (c : Bool),
      (db.map (·.id)).Nodup →
      ∀ x ∈ (mark_completed now fuel db tid c).2, CReach db tid x := by
  intro fuel
  induction fuel with
  | zero =>
    intro db tid c _ x hx
    cases c <;> simp [mark_completed] at hx <;> exact hx ▸ CReach.root
  | succ n ih =>
    intro db tid c hnd x hx
    cases c with
    | false =>
      simp [mark_completed] at hx
      exact hx ▸ CReach.root
    | true =>
      simp only [mark_completed] at hx
      refine (foldl_inv_mem _
        (fun p => ChoiceMap (setCF now) db p.1 ∧ ∀ y ∈ p.2, CReach db tid y)
        (childIds (upd (setCF now) db tid) tid) ?_ (upd (setCF now) db tid, [tid])
        ?_).2 x hx
      · intro p cid hcid hI
        cases hf : findTask p.1 cid with
        | none => simpa [hf] using hI
        | some ct =>
          by_cases hcc : ct.completed
          · simpa [hf, hcc] using hI
          · simp only [hf, hcc, if_false]
            refine ⟨ChoiceMap_trans (setCF_idem now) hI.1
              (mark_completed_choice now n p.1 cid true), ?_⟩
            intro y hy
            rcases List.mem_append.1 hy with hy | hy
            · exact hI.2 y hy
            · have hsub : CReach p.1 cid y :=
                ih p.1 cid true (ChoiceMap_nodup (setCF_id now) hI.1 hnd) y hy
              have hdb : CReach db cid y :=
                CReach_congr
                  (fun z => ChoiceMap_parentOf (setCF_id now) (setCF_parentId now) hI.1 z)
                  (fun z => ChoiceMap_completed_false_rev hI.1 z) hsub
              have hciddb : cid ∈ childIds db tid := by
                rwa [ChoiceMap_childIds (setCF_id now) (setCF_parentId now)
                  (ChoiceMap_upd (setCF now) db tid) tid] at hcid
              obtain ⟨t1, ht1, hti, htp⟩ := mem_childIds.1 hciddb
              have hpar : parentOfId db cid = some tid := by
                rw [parentOfId, ← hti, findTask_nodup hnd ht1]
                simp [htp]
              have hcf : completedOf db cid = some false := by
                refine ChoiceMap_completed_false_rev hI.1 cid ?_
                rw [completedOf, hf]
                simpa using hcc
              exact CReach_append hdb (CReach.step CReach.root hpar hcf)
      · refine ⟨ChoiceMap_upd (setCF now) db tid, ?_⟩
        intro y hy
        simp at hy
        exact hy ▸ CReach.root

/-! ## `mark_incomplete` -/

theorem clearCF_id (t : Task) : (clearCF t).id = t.id := rfl

theorem clearCF_parentId (t : Task) : (clearCF t).parentId = t.parentId := rfl

/-- C1 (amended).  `markIncomplete(t, cascade=true)` clears `completed` and
`completed_at` on `t` and, when `t`'s stored parent is currently completed,
on that parent as well; the recursive call passes `cascade=false`, so the
walk stops there: every other row — in particular every higher ancestor,
completed or not — is unchanged. -/
theorem mark_incomplete_single_hop (db : Db) (tid pid : Nat) (t p : Task)
    (ht : findTask db tid = some t) (htp : t.parentId = some pid)
    (hne : pid ≠ tid) (hp : findTask db pid = some p) (hpc : p.completed = true) :
    findTask (mark_incomplete db tid true) tid = some (clearCF t) ∧
    findTask (mark_incomplete db tid true) pid = some (clearCF p) ∧
    ∀ x, x ≠ tid → x ≠ pid → findTask (mark_incomplete db tid true) x = findTask db x := by
  have h1 : findTask (clearRow db tid) tid = some (clearCF t) := by
    rw [clearRow, findTask_upd clearCF clearCF_id]
    simp [ht]
  have h2 : findTask (clearRow db tid) pid = some p := by
    rw [clearRow, findTask_upd clearCF clearCF_id]
    simp [hne, hp]
  have hres : (findTask (clearRow db tid) tid).bind
      (fun t => t.parentId.bind (findTask (clearRow db tid))) = some p := by
    rw [h1]
    simp [clearCF_parentId, htp, h2]
  have hrun : mark_incomplete db tid true = clearRow (clearRow db tid) pid := by
    simp only [mark_incomplete, if_true, hres, hpc, findTask_id hp]
  refine ⟨?_, ?_, ?_⟩
  · rw [hrun, clearRow, findTask_upd clearCF clearCF_id]
    simp [hne.symm, h1]
  · rw [hrun, clearRow, findTask_upd clearCF clearCF_id]
    simp [h2]
  · intro x hx1 hx2
    rw [hrun, clearRow, findTask_upd clearCF clearCF_id, clearRow,
      findTask_upd clearCF clearCF_id]
    simp [hx1, hx2]

/-- Witness for `mark_incomplete_single_hop` at the completed chain
1 ← 2 ← 3, un-completing task 3. -/
theorem mark_incomplete_single_hop_witness :
    (findTask exChainUp 3 = some (mkT 3 (some 2) true (some 5) 1) ∧
     (mkT 3 (some 2) true (some 5) 1).parentId = some 2 ∧
     (2 : Nat) ≠ 3 ∧
     findTask exChainUp 2 = some (mkT 2 (some 1) true (some 5) 1) ∧
     (mkT 2 (some 1) true (some 5) 1).completed = true) ∧
    (findTask (mark_incomplete exChainUp 3 true) 3
        = some (clearCF (mkT 3 (some 2) true (some 5) 1)) ∧
     findTask (mark_incomplete exChainUp 3 true) 2
        = some (clearCF (mkT 2 (some 1) true (some 5) 1)) ∧
     ∀ x, x ≠ 3 → x ≠ 2 → findTask (mark_incomplete exChainUp 3 true) x
        = findTask exChainUp x) :=
  ⟨⟨by decide, by decide, by decide, by decide, by decide⟩,
   mark_incomplete_single_hop exChainUp 3 2
     (mkT 3 (some 2) true (some 5) 1) (mkT 2 (some 1) true (some 5) 1)
     (by decide) (by decide) (by decide) (by decide) (by decide)⟩

/-- Counterexample to C1 as stated: in the fully completed chain 1 ← 2 ← 3,
`markIncomplete(3, cascade=true)` clears 3 and its parent 2, but the
completed grandparent 1 — whose own child 2 was completed, so the claimed
walk should have continued — remains completed. -/
theorem mark_incomplete_chain_counterexample :
    completedOf exChainUp 1 = some true ∧
    completedOf exChainUp 2 = some true ∧
    completedOf (mark_incomplete exChainUp 3 true) 3 = some false ∧
    completedOf (mark_incomplete exChainUp 3 true) 2 = some false ∧
    completedOf (mark_incomplete exChainUp 3 true) 1 = some true := by
  decide

/-! ## `mark_completed` -/

theorem CReach_iff_creachN {db : Db} {r x : Nat} :
    CReach db r x ↔ ∃ k, CReachN db r x k := by
  constructor
  · intro h
    induction h with
    | root => exact ⟨0, CReachN.root⟩
    | step _ hpar hcf ih =>
      obtain ⟨k, hk⟩ := ih
      exact ⟨k + 1, CReachN.step hk hpar hcf⟩
  · rintro ⟨k, hk⟩
    induction hk with
    | root => exact CReach.root
    | step _ hpar hcf ih => exact CReach.step ih hpar hcf

theorem creachN_zero {db : Db} {r y : Nat} (h : CReachN db r y 0) : y = r := by
  cases h
  rfl

theorem creachN_cf {db : Db} {r y k : Nat} (h : CReachN db r y k) (hk : 1 ≤ k) :
    completedOf db y = some false := by
  cases h with
  | root => cases hk
  | step _ _ hcf => exact hcf

theorem creachN_ancN_or {db : Db} {r y k : Nat} (h : CReachN db r y k) :
    AncN db r y k ∨ (y = r ∧ k = 0) := by
  induction h with
  | root => exact Or.inr ⟨rfl, rfl⟩
  | step _ hpar _ ih =>
    rcases ih with ha | ⟨he, hk0⟩
    · exact Or.inl (AncN.succ hpar ha)
    · rw [hk0]
      exact Or.inl (AncN.one (he ▸ hpar))

theorem creachN_ancN {db : Db} {r y k : Nat} (h : CReachN db r y k) (hk : 1 ≤ k) :
    AncN db r y k := by
  rcases creachN_ancN_or h with ha | ⟨_, hk0⟩
  · exact ha
  · rw [hk0] at hk
    cases hk

theorem creachN_anc {db : Db} {r y k : Nat} (h : CReachN db r y k) (hk : 1 ≤ k) :
    Anc db r y :=
  Anc_iff_AncN.2 ⟨k, creachN_ancN h hk⟩

/-- Decompose a counted cascade chain at its top: it enters through a
not-yet-completed child `c` of the root. -/
theorem CReachN_top_or {db : Db} {tid x n : Nat} (h : CReachN db tid x n) :
    (x = tid ∧ n = 0) ∨
    ∃ c m, n = m + 1 ∧ parentOfId db c = some tid ∧
      completedOf db c = some false ∧ CReachN db c x m := by
  induction h with
  | root => exact Or.inl ⟨rfl, rfl⟩
  | @step yx p kk _ hpar hcf ih =>
    rcases ih with ⟨he, hk0⟩ | ⟨c, m2, he2, hc, hcfc, hcp⟩
    · rw [hk0]
      exact Or.inr ⟨yx, 0, rfl, he ▸ hpar, hcf, CReachN.root⟩
    · exact Or.inr ⟨c, m2 + 1, by omega, hc, hcfc, CReachN.step hcp hpar hcf⟩

theorem CReachN_top {db : Db} {tid x n : Nat} (h : CReachN db tid x n) (hn : 1 ≤ n) :
    ∃ c m, n = m + 1 ∧ parentOfId db c = some tid ∧
      completedOf db c = some false ∧ CReachN db c x m := by
  rcases CReachN_top_or h with ⟨_, hk0⟩ | hr
  · rw [hk0] at hn
    cases hn
  · exact hr

/-- Transport a counted cascade chain to another table that has the same
parent pointers and still marks every strict chain node incomplete. -/
theorem CReachN_congr2 {db db' : Db} {r : Nat}
    (hp : ∀ y, parentOfId db' y = parentOfId db y)
    (hcf : ∀ y k, CReachN db r y k → 1 ≤ k → completedOf db' y = some false) :
    ∀ {x m : Nat}, CReachN db r x m → CReachN db' r x m := by
  intro x m h
  induction h with
  | root => exact CReachN.root
  | step h hpar hcfx ih =>
    refine CReachN.step ih (hp _ ▸ hpar) ?_
    exact hcf _ _ (CReachN.step h hpar hcfx) (Nat.succ_le_succ (Nat.zero_le _))

theorem Anc_inv_parent {db : Db} {a x p : Nat} (h : Anc db a x)
    (hp : parentOfId db x = some p) : a = p ∨ Anc db a p := by
  cases h with
  | parent h1 =>
    rw [hp] at h1
    exact Or.inl (Option.some_inj.1 h1).symm
  | step h1 ha =>
    rw [hp] at h1
    exact Or.inr ((Option.some_inj.1 h1) ▸ ha)

/-- On acyclic data, the cascade chain entering through child `c` of `tid`
never meets a different child `c2` of `tid` or its subtree. -/
theorem chain_disjoint {db : Db} (acyc : ∀ z, ¬ Anc db z z) {tid c c2 : Nat}
    (hc : parentOfId db c = some tid) (hc2 : parentOfId db c2 = some tid)
    (hne : c2 ≠ c) :
    ∀ {y k : Nat}, CReachN db c y k → ¬ (y = c2 ∨ Anc db c2 y) := by
  intro y k h
  induction h with
  | root =>
    rintro (he | ha)
    · exact hne he.symm
    · rcases Anc_inv_parent ha hc with he | ha2
      · rw [he] at hc2
        exact acyc tid (Anc.parent hc2)
      · exact acyc c2 (Anc_trans (Anc.parent hc2) ha2)
  | step h hpar hcf ih =>
    rename_i yx p kk
    rintro (he | ha)
    · rw [he, hc2] at hpar
      have hpt : p = tid := (Option.some_inj.1 hpar).symm
      rw [hpt] at h
      cases kk with
      | zero =>
        have : tid = c := creachN_zero h
        rw [this] at hc
        exact acyc c (Anc.parent hc)
      | succ m =>
        exact acyc c (Anc_trans (Anc.parent hc)
          (creachN_anc h (Nat.succ_le_succ (Nat.zero_le m))))
    · rcases Anc_inv_parent ha hpar with he2 | ha2
      · exact ih (Or.inl he2.symm)
      · exact ih (Or.inr ha2)

/-- Fold up to the first occurrence of `c0`, where the hit happens; steps
on other elements must preserve the invariant. -/
theorem foldl_first_hit (step : Db × List Nat → Nat → Db × List Nat)
    (happ : ∀ p c2, ∃ v, (step p c2).2 = p.2 ++ v)
    (I : Db × List Nat → Prop) (x c0 : Nat)
    (hhit : ∀ p, I p → x ∈ (step p c0).2) :
    ∀ (l : List Nat), (∀ p c2, c2 ∈ l → c2 ≠ c0 → I p → I (step p c2)) →
      ∀ p, c0 ∈ l → I p → x ∈ (l.foldl step p).2 := by
  intro l
  induction l with
  | nil => intro _ p hc; cases hc
  | cons c2 t ih =>
    intro hskip p hc hI
    by_cases he : c2 = c0
    · rw [he]
      exact foldl_snd_sub step happ t (step p c0) x (hhit p hI)
    · rcases List.mem_cons.1 hc with he2 | hmem
      · exact absurd he2.symm he
      · exact ih (fun p c3 hc3 => hskip p c3 (List.mem_cons_of_mem _ hc3)) (step p c2)
          hmem (hskip p c2 (List.mem_cons_self c2 t) he hI)

/-- Completeness of the cascade on acyclic tables: every row reachable from
`tid` through a chain of not-yet-completed children, of length within the
fuel, is visited by `mark_completed`. -/
theorem mark_completed_complete (now : Nat) :
    ∀ (fuel : Nat) (db : Db) (tid : Nat),
      (db.map (·.id)).Nodup → (∀ z, ¬ Anc db z z) →
      ∀ x k, CReachN db tid x k → k ≤ fuel →
        x ∈ (mark_completed now fuel db tid true).2 := by
  intro fuel
  induction fuel with
  | zero =>
    intro db tid _ _ x k hk hle
    have : k = 0 := Nat.le_zero.1 hle
    rw [this] at hk
    rw [creachN_zero hk]
    simp [mark_completed]
  | succ f ih =>
    intro db tid hnd acyc x k hk hle
    cases k with
    | zero =>
      rw [creachN_zero hk]
      exact mark_completed_root_mem now (f + 1) db tid true
    | succ m0 =>
      obtain ⟨c, m, he, hc, hcfc, hchain⟩ :=
        CReachN_top hk (Nat.succ_le_succ (Nat.zero_le m0))
      have hmle : m ≤ f := by omega
      have hcnetid : c ≠ tid := by
        intro he2
        rw [he2] at hc
        exact acyc tid (Anc.parent hc)
      have hchild : c ∈ childIds (upd (setCF now) db tid) tid := by
        rw [ChoiceMap_childIds (setCF_id now) (setCF_parentId now)
          (ChoiceMap_upd (setCF now) db tid) tid]
        rw [parentOfId] at hc
        cases hf : findTask db c with
        | none => rw [hf] at hc; cases hc
        | some ct =>
          rw [hf] at hc
          refine mem_childIds.2 ⟨ct, findTask_mem hf, findTask_id hf, ?_⟩
          simpa using hc
      simp only [mark_completed]
      refine foldl_first_hit _ ?_
        (fun p => ChoiceMap (setCF now) db p.1 ∧ Pt (setCF now) db p.1 p.2 ∧
          ∀ y ∈ p.2, y = tid ∨ ∃ c2, c2 ≠ c ∧ parentOfId db c2 = some tid ∧
            (y = c2 ∨ Anc db c2 y))
        x c ?_ _ ?_ _ hchild ?_
      · intro p c2
        cases hf : findTask p.1 c2 with
        | none => exact ⟨[], by simp [hf]⟩
        | some ct =>
          by_cases hcc : ct.completed
          · exact ⟨[], by simp [hf, hcc]⟩
          · exact ⟨(mark_completed now f p.1 c2 true).2, by simp [hf, hcc]⟩
      · -- the hit at the first occurrence of c
        intro p hI
        have hnotvis : ∀ y j, CReachN db c y j → y ∉ p.2 := by
          intro y j hyj hymem
          rcases hI.2.2 y hymem with he2 | ⟨c2, hne2, hpc2, hy2⟩
          · rcases Nat.eq_zero_or_pos j with hj | hj
            · rw [hj] at hyj
              rw [creachN_zero hyj] at he2
              exact hcnetid he2
            · rw [he2] at hyj
              exact acyc c (Anc_trans (Anc.parent hc) (creachN_anc hyj hj))
          · exact chain_disjoint acyc hc hpc2 hne2 hyj hy2
        have hfc : findTask p.1 c = findTask db c := by
          have := hI.2.1 c
          rwa [if_neg (hnotvis c 0 CReachN.root)] at this
        obtain ⟨ct, hfct, hctf⟩ : ∃ ct, findTask p.1 c = some ct ∧
            ct.completed = false := by
          rw [completedOf] at hcfc
          cases hf2 : findTask db c with
          | none => rw [hf2] at hcfc; cases hcfc
          | some ct =>
            rw [hf2] at hcfc
            exact ⟨ct, hfc ▸ hf2, by simpa using hcfc⟩
        have hccn : ¬ (ct.completed = true) := by simp [hctf]
        simp only [hfct, hccn, if_false]
        refine List.mem_append_right _ ?_
        refine ih p.1 c (ChoiceMap_nodup (setCF_id now) hI.1 hnd) ?_ x m ?_ hmle
        · intro z hz
          exact acyc z (Anc_congr
            (fun w => ChoiceMap_parentOf (setCF_id now) (setCF_parentId now) hI.1 w) hz)
        · refine CReachN_congr2
            (fun w => ChoiceMap_parentOf (setCF_id now) (setCF_parentId now) hI.1 w)
            (fun y j hyj hj => ?_) hchain
          have hyn : y ∉ p.2 := hnotvis y j hyj
          have := hI.2.1 y
          rw [if_neg hyn] at this
          rw [completedOf, this, ← completedOf]
          exact creachN_cf hyj hj
      · -- steps on other children preserve the invariant
        intro p c2 hc2l hne hI
        cases hf : findTask p.1 c2 with
        | none => simpa [hf] using hI
        | some ct =>
          by_cases hcc : ct.completed
          · simpa [hf, hcc] using hI
          · simp only [hf, hcc, if_false]
            refine ⟨ChoiceMap_trans (setCF_idem now) hI.1
              (mark_completed_choice now f p.1 c2 true),
              Pt_trans (setCF_idem now) hI.2.1 (mark_completed_pt now f p.1 c2 true), ?_⟩
            intro y hy
            rcases List.mem_append.1 hy with hy | hy
            · exact hI.2.2 y hy
            · have hpar2 : parentOfId db c2 = some tid := by
                have hc2db : c2 ∈ childIds db tid := by
                  rwa [ChoiceMap_childIds (setCF_id now) (setCF_parentId now)
                    (ChoiceMap_upd (setCF now) db tid) tid] at hc2l
                obtain ⟨t1, ht1, hti, htp⟩ := mem_childIds.1 hc2db
                rw [parentOfId, ← hti, findTask_nodup hnd ht1]
                simp [htp]
              have hsub : CReach p.1 c2 y :=
                mark_completed_sound now f p.1 c2 true
                  (ChoiceMap_nodup (setCF_id now) hI.1 hnd) y hy
              have hdb : CReach db c2 y :=
                CReach_congr
                  (fun w => ChoiceMap_parentOf (setCF_id now) (setCF_parentId now) hI.1 w)
                  (fun w => ChoiceMap_completed_false_rev hI.1 w) hsub
              rcases Anc_of_CReach hdb with he2 | ha2
              · exact Or.inr ⟨c2, hne, hpar2, Or.inl he2⟩
              · exact Or.inr ⟨c2, hne, hpar2, Or.inr ha2⟩
      · -- the invariant holds initially
        refine ⟨ChoiceMap_upd (setCF now) db tid,
          Pt_upd (setCF now) (setCF_id now) db tid, ?_⟩
        intro y hy
        simp at hy
        exact Or.inl hy

/-- C5 (amended).  `markCompleted(t, cascade=true)` stamps `t` and cascades
strictly downward, exactly through children that are not already completed:
every visited row ends with `completed=true` and a set `completed_at`; the
visited rows all lie in the incomplete-child reachable set of `t`
(`CReach`); conversely, on acyclic data every row reachable from `t` by a
chain of not-yet-completed children whose length fits in the fuel (any
chain, once the fuel covers the table) is visited and hence completed; and
every row outside the visited set — in particular every descendant lying
below an already-completed child — is unchanged. -/
theorem mark_completed_cascade_spec (now fuel : Nat) (db : Db) (tid : Nat)
    (hnd : (db.map (·.id)).Nodup) :
    tid ∈ (mark_completed now fuel db tid true).2 ∧
    (∀ x ∈ (mark_completed now fuel db tid true).2,
        findTask (mark_completed now fuel db tid true).1 x
          = (findTask db x).map (setCF now) ∧ CReach db tid x) ∧
    (∀ x, x ∉ (mark_completed now fuel db tid true).2 →
        findTask (mark_completed now fuel db tid true).1 x = findTask db x) ∧
    ((∀ z, ¬ Anc db z z) →
      ∀ x k, CReachN db tid x k → k ≤ fuel →
        x ∈ (mark_completed now fuel db tid true).2) := by
  have hpt := mark_completed_pt now fuel db tid true
  refine ⟨mark_completed_root_mem now fuel db tid true, ?_, ?_, ?_⟩
  · intro x hx
    refine ⟨?_, mark_completed_sound now fuel db tid true hnd x hx⟩
    have := hpt x
    rwa [if_pos hx] at this
  · intro x hx
    have := hpt x
    rwa [if_neg hx] at this
  · intro hacyc x k hk hle
    exact mark_completed_complete now fuel db tid hnd hacyc x k hk hle

/-- Witness for `mark_completed_cascade_spec` at the tree where task 1 has
the already-completed child 2 (with incomplete grandchild 3) and the
incomplete child 4. -/
theorem mark_completed_cascade_spec_witness :
    (exSkip.map (·.id)).Nodup ∧
    (1 ∈ (mark_completed 9 4 exSkip 1 true).2 ∧
     (∀ x ∈ (mark_completed 9 4 exSkip 1 true).2,
        findTask (mark_completed 9 4 exSkip 1 true).1 x
          = (findTask exSkip x).map (setCF 9) ∧ CReach exSkip 1 x) ∧
     (∀ x, x ∉ (mark_completed 9 4 exSkip 1 true).2 →
        findTask (mark_completed 9 4 exSkip 1 true).1 x = findTask exSkip x) ∧
     ((∀ z, ¬ Anc exSkip z z) →
       ∀ x k, CReachN exSkip 1 x k → k ≤ 4 →
         x ∈ (mark_completed 9 4 exSkip 1 true).2)) :=
  ⟨by decide, mark_completed_cascade_spec 9 4 exSkip 1 (by decide)⟩

/-- Counterexample to C5 as stated: `markCompleted(1, cascade=true)` on the
tree 1 → \x7b2 (completed) → 3 (incomplete), 4\x7d completes 1 and 4, but the
descendant 3 — which sits below the already-completed child 2 — is still
incomplete afterwards, although C5 claims the full subtree regardless of
prior state ends completed. -/
theorem mark_completed_skips_completed_child :
    Anc exSkip 1 3 ∧
    completedOf (mark_completed 9 10 exSkip 1 true).1 1 = some true ∧
    completedOf (mark_completed 9 10 exSkip 1 true).1 4 = some true ∧
    completedOf (mark_completed 9 10 exSkip 1 true).1 3 = some false :=
  ⟨Anc.step (show parentOfId exSkip 3 = some 2 by decide)
     (Anc.parent (show parentOfId exSkip 2 = some 1 by decide)),
   by decide, by decide, by decide⟩

/-! ## The completed/completed_at invariant -/

theorem okTask_setCF (now : Nat) (t : Task) : okTask (setCF now t) := by
  simp [okTask, setCF]

theorem okTask_clearCF (t : Task) : okTask (clearCF t) := by
  simp [okTask, clearCF]

theorem invDb_map {g : Task → Task} (hg : ∀ t, okTask t → okTask (g t)) {db : Db}
    (h : invDb db) : invDb (db.map g) := by
  intro t ht
  obtain ⟨t0, ht0, rfl⟩ := List.mem_map.1 ht
  exact hg t0 (h t0 ht0)

theorem invDb_upd {f : Task → Task} (hf : ∀ t, okTask t → okTask (f t)) {db : Db}
    (h : invDb db) (tid : Nat) : invDb (upd f db tid) := by
  rw [upd_eq_map]
  refine invDb_map (fun t ht => ?_) h
  by_cases he : t.id = tid <;> simp [he, hf t ht, ht]

theorem invDb_choice {F : Task → Task} (hF : ∀ t, okTask (F t)) {db db' : Db}
    (hc : ChoiceMap F db db') (h : invDb db) : invDb db' := by
  obtain ⟨g, hg, rfl⟩ := hc
  refine invDb_map (fun t ht => ?_) h
  rcases hg t with he | he <;> rw [he]
  · exact ht
  · exact hF t

theorem invDb_append_one {db : Db} {t : Task} (h : invDb db) (ht : okTask t) :
    invDb (db ++ [t]) := by
  intro x hx
  rcases List.mem_append.1 hx with hx | hx
  · exact h x hx
  · simp at hx
    exact hx ▸ ht

theorem invDb_clearRow {db : Db} (h : invDb db) (tid : Nat) :
    invDb (clearRow db tid) :=
  invDb_upd (fun t _ => okTask_clearCF t) h tid

theorem invDb_mark_completed (now fuel : Nat) {db : Db} (h : invDb db) (tid : Nat)
    (c : Bool) : invDb (mark_completed now fuel db tid c).1 :=
  invDb_choice (okTask_setCF now) (mark_completed_choice now fuel db tid c) h

theorem invDb_mark_incomplete {db : Db} (h : invDb db) (tid : Nat) (c : Bool) :
    invDb (mark_incomplete db tid c) := by
  rw [mark_incomplete]
  cases c with
  | false => exact invDb_clearRow h tid
  | true =>
    simp only [if_true]
    cases (findTask (clearRow db tid) tid).bind
        (fun t => t.parentId.bind (findTask (clearRow db tid))) with
    | none => exact invDb_clearRow h tid
    | some p =>
      by_cases hp : p.completed <;>
        simp only [hp, if_true, if_false] <;>
        first
          | exact invDb_clearRow (invDb_clearRow h tid) p.id
          | exact invDb_clearRow h tid

theorem invDb_updateRest {db : Db} (h : invDb db) (tid : Nat) (req : UpdateReq)
    (now : Nat) : invDb (updateRest db tid req now) := by
  rw [updateRest]
  have hok : ∀ (s : String), ∀ t, okTask t → okTask { t with description := s } := by
    intro s t ht; simpa [okTask] using ht
  have hok2 : ∀ (s : String), ∀ t, okTask t → okTask { t with urgency := s } := by
    intro s t ht; simpa [okTask] using ht
  have h2 : invDb (match req.description with
      | some d => upd (fun t => { t with description := d }) db tid
      | none => db) := by
    cases req.description with
    | none => exact h
    | some d => exact invDb_upd (hok d) h tid
  have h3 : invDb (match req.urgency with
      | some urg =>
        if urg = "low" ∨ urg = "medium" ∨ urg = "high" ∨ urg = "urgent" then
          upd (fun t => { t with urgency := urg }) (match req.description with
            | some d => upd (fun t => { t with description := d }) db tid
            | none => db) tid
        else (match req.description with
            | some d => upd (fun t => { t with description := d }) db tid
            | none => db)
      | none => (match req.description with
            | some d => upd (fun t => { t with description := d }) db tid
            | none => db)) := by
    cases req.urgency with
    | none => exact h2
    | some urg =>
      by_cases hu : urg = "low" ∨ urg = "medium" ∨ urg = "high" ∨ urg = "urgent" <;>
        simp only [hu, if_true, if_false]
      · exact invDb_upd (hok2 urg) h2 tid
      · exact h2
  cases req.completed with
  | none => exact h3
  | some b =>
    cases b with
    | true => exact invDb_mark_completed _ _ h3 tid true
    | false => exact invDb_mark_incomplete h3 tid true

/-- C6.  Every engine operation — direct completion marks, the bulk
complete/uncheck operations, task creation through either endpoint, and
task update — preserves the invariant that `completed` is true exactly when
`completed_at` is non-null, for every row of the table. -/
theorem completed_iff_completed_at (db : Db) (op : Op) (h : invDb db) :
    invDb (applyOp db op) := by
  cases op with
  | opMarkCompleted tid now => exact invDb_mark_completed now db.length h tid true
  | opMarkIncomplete tid => exact invDb_mark_incomplete h tid true
  | opCompleteAll ls u listId now =>
    rw [applyOp, complete_all_tasks]
    cases findListBy ls listId u with
    | none => exact h
    | some l =>
      simp only [resDb]
      refine foldl_inv_mem _ invDb _ (fun acc tid _ hacc => ?_) db h
      cases findTask acc tid with
      | none => exact hacc
      | some t =>
        by_cases hc : t.completed <;> simp only [hc, if_true, if_false]
        · exact hacc
        · exact invDb_mark_completed now acc.length hacc tid true
  | opUncheckAll ls u listId =>
    rw [applyOp, uncheck_all_tasks]
    cases findListBy ls listId u with
    | none => exact h
    | some l =>
      simp only [resDb]
      refine invDb_map (fun t ht => ?_) h
      by_cases hc : (t.listId == listId && t.userId == u) <;>
        simp [hc, okTask_clearCF, ht]
  | opCreateTask ls u req newId =>
    rw [applyOp, create_task]
    by_cases he : strip req.title = "" <;> simp only [he, if_true, if_false]
    · exact h
    · cases findListBy ls req.listId u with
      | none => exact h
      | some l =>
        simp only [resDb]
        refine invDb_append_one h ?_
        simp [okTask]
  | opCreateSubtask u pid req newId =>
    rw [applyOp, create_subtask]
    cases findTaskBy db pid u with
    | none => exact h
    | some parent =>
      by_cases he : strip req.title = "" <;> simp only [he, if_true, if_false]
      · exact h
      · cases get_depth (db.length + 1) db parent.id with
        | none => exact h
        | some d =>
          by_cases hd : 5 ≤ d <;> simp only [hd, if_true, if_false]
          · exact h
          · simp only [resDb]
            refine invDb_append_one h ?_
            simp [okTask]
  | opUpdateTask u tid req now =>
    rw [applyOp, update_task]
    cases findTaskBy db tid u with
    | none => exact h
    | some t =>
      cases req.title with
      | none => exact invDb_updateRest h tid req now
      | some s =>
        by_cases he : strip s = "" <;> simp only [he, if_true, if_false]
        · exact h
        · simp only [resDb]
          refine invDb_updateRest ?_ tid req now
          refine invDb_upd (fun t ht => ?_) h tid
          simpa [okTask] using ht

/-- Witness for `completed_iff_completed_at`: completing task 1 of `exBulk`. -/
theorem completed_iff_completed_at_witness :
    invDb exBulk ∧ invDb (applyOp exBulk (.opMarkCompleted 1 9)) :=
  ⟨by decide, completed_iff_completed_at exBulk (.opMarkCompleted 1 9) (by decide)⟩

/-! ## Bulk operations -/

theorem setCF_listId (now : Nat) (t : Task) : (setCF now t).listId = t.listId := rfl

theorem setCF_userId (now : Nat) (t : Task) : (setCF now t).userId = t.userId := rfl

theorem mem_of_choice {F : Task → Task} {db db' : Db} (h : ChoiceMap F db db') :
    ∀ t' ∈ db', ∃ t ∈ db, t' = t ∨ t' = F t := by
  obtain ⟨g, hg, rfl⟩ := h
  intro t' ht'
  obtain ⟨t, ht, rfl⟩ := List.mem_map.1 ht'
  rcases hg t with he | he
  · exact ⟨t, ht, Or.inl he⟩
  · exact ⟨t, ht, Or.inr he⟩

/-- `complete_all_tasks` only ever keeps a row or stamps it completed. -/
theorem complete_all_choice (db : Db) (ls : List TodoList) (u L now : Nat) :
    ChoiceMap (setCF now) db (resDb db (complete_all_tasks db ls u L now)) := by
  rw [complete_all_tasks]
  cases findListBy ls L u with
  | none => exact ChoiceMap_rfl (setCF now) db
  | some l =>
    simp only [resDb]
    refine foldl_inv_mem _ (fun d => ChoiceMap (setCF now) db d) _
      (fun d c _ hd => ?_) db (ChoiceMap_rfl (setCF now) db)
    cases findTask d c with
    | none => exact hd
    | some t =>
      by_cases hc : t.completed <;> simp only [hc, if_true, if_false]
      · exact hd
      · exact ChoiceMap_trans (setCF_idem now) hd (mark_completed_choice now d.length d c true)

/-- Core of C7: on any table whose rows of list `L` all belong to `u`,
`uncheck_all_tasks` clears every row of list `L`, at every depth. -/
theorem uncheck_core (db0 : Db) (ls : List TodoList) (u L : Nat) (l : TodoList)
    (hl : findListBy ls L u = some l)
    (hu : ∀ t ∈ db0, t.listId = L → t.userId = u) :
    uncheck_all_tasks db0 ls u L
        = .ok (db0.map (fun t => if t.listId == L && t.userId == u then clearCF t else t)) ∧
    ∀ t ∈ resDb db0 (uncheck_all_tasks db0 ls u L),
      t.listId = L → t.completed = false ∧ t.completedAt = none := by
  rw [uncheck_all_tasks, hl]
  refine ⟨rfl, ?_⟩
  simp only [resDb]
  intro t' ht' hlist
  obtain ⟨t, ht, rfl⟩ := List.mem_map.1 ht'
  have hsame : t.listId = L := by
    by_cases hc : (t.listId == L && t.userId == u) = true <;>
      simpa [hc, clearCF] using hlist
  have huser : t.userId = u := hu t ht hsame
  simp [hsame, huser, clearCF]

/-- C7.  When every task of list `L` belongs to its owner `u` (which every
creation path guarantees), `uncheckAll(L)` sets `completed=false` and
`completed_at=null` on every task whose `list_id` is `L`, top-level or
nested, directly and with no cascading; consequently `completeAll(L)`
followed by `uncheckAll(L)` leaves every task of `L` incomplete. -/
theorem uncheck_all_clears_list (db : Db) (ls : List TodoList) (u L now : Nat)
    (l : TodoList) (hl : findListBy ls L u = some l)
    (hu : ∀ t ∈ db, t.listId = L → t.userId = u) :
    (uncheck_all_tasks db ls u L
       = .ok (db.map (fun t => if t.listId == L && t.userId == u then clearCF t else t)) ∧
     ∀ t ∈ resDb db (uncheck_all_tasks db ls u L),
       t.listId = L → t.completed = false ∧ t.completedAt = none) ∧
    (∀ t ∈ resDb (resDb db (complete_all_tasks db ls u L now))
        (uncheck_all_tasks (resDb db (complete_all_tasks db ls u L now)) ls u L),
      t.listId = L → t.completed = false ∧ t.completedAt = none) := by
  refine ⟨uncheck_core db ls u L l hl hu, ?_⟩
  have hch := complete_all_choice db ls u L now
  refine (uncheck_core (resDb db (complete_all_tasks db ls u L now)) ls u L l hl ?_).2
  intro t2 ht2 hlist
  obtain ⟨t, ht, he⟩ := mem_of_choice hch t2 ht2
  rcases he with he | he
  · rw [he] at hlist ⊢
    exact hu t ht hlist
  · rw [he] at hlist ⊢
    simp only [setCF_listId] at hlist
    simpa [setCF] using hu t ht hlist

/-- Witness for `uncheck_all_clears_list` on `exBulk` (top-level 1 with
already-completed child 2). -/
theorem uncheck_all_clears_list_witness :
    (findListBy exLists 1 1 = some ⟨1, "a", 1⟩ ∧
     ∀ t ∈ exBulk, t.listId = 1 → t.userId = 1) ∧
    ((uncheck_all_tasks exBulk exLists 1 1
       = .ok (exBulk.map (fun t => if t.listId == 1 && t.userId == 1 then clearCF t else t)) ∧
      ∀ t ∈ resDb exBulk (uncheck_all_tasks exBulk exLists 1 1),
        t.listId = 1 → t.completed = false ∧ t.completedAt = none) ∧
     (∀ t ∈ resDb (resDb exBulk (complete_all_tasks exBulk exLists 1 1 9))
         (uncheck_all_tasks (resDb exBulk (complete_all_tasks exBulk exLists 1 1 9)) exLists 1 1),
       t.listId = 1 → t.completed = false ∧ t.completedAt = none)) :=
  ⟨⟨by decide, by decide⟩,
   uncheck_all_clears_list exBulk exLists 1 1 9 ⟨1, "a", 1⟩ (by decide) (by decide)⟩

/-- C10.  `completeAll(L)` leaves an already-completed top-level task `T`
untouched and never descends into its subtree: every task `d` that has the
completed top-level `T` as an ancestor keeps its row unchanged (so an
incomplete descendant of an already-completed top-level task stays
incomplete). -/
theorem complete_all_skips_completed_top (db : Db) (ls : List TodoList)
    (u L now T d : Nat) (hnd : (db.map (·.id)).Nodup)
    (hT : parentOfId db T = none) (hTc : completedOf db T = some true)
    (hAnc : Anc db T d) :
    findTask (resDb db (complete_all_tasks db ls u L now)) d = findTask db d ∧
    findTask (resDb db (complete_all_tasks db ls u L now)) T = findTask db T := by
  rw [complete_all_tasks]
  cases findListBy ls L u with
  | none => exact ⟨rfl, rfl⟩
  | some l =>
    simp only [resDb]
    refine (foldl_inv_mem _
      (fun dcur => ChoiceMap (setCF now) db dcur ∧
        findTask dcur d = findTask db d ∧ findTask dcur T = findTask db T)
      ((db.filter (fun t => t.listId == L && t.userId == u && t.parentId == none)).map (·.id))
      (fun dcur t0 ht0 hI => ?_) db
      ⟨ChoiceMap_rfl (setCF now) db, rfl, rfl⟩).2
    obtain ⟨task0, htask0, hid0⟩ := List.mem_map.1 ht0
    obtain ⟨hmem0, hflt⟩ := List.mem_filter.1 htask0
    have htop0 : task0.parentId = none := by
      simp only [Bool.and_eq_true, beq_iff_eq] at hflt
      exact hflt.2
    have hpar0 : parentOfId db t0 = none := by
      rw [parentOfId, ← hid0, findTask_nodup hnd hmem0]
      simp [htop0]
    cases hf : findTask dcur t0 with
    | none => simpa [hf] using hI
    | some ct =>
      by_cases hcc : ct.completed
      · simpa [hf, hcc] using hI
      · simp only [hf, hcc, if_false]
        have hndcur : (dcur.map (·.id)).Nodup := ChoiceMap_nodup (setCF_id now) hI.1 hnd
        have hcf0 : completedOf dcur t0 = some false := by
          rw [completedOf, hf]
          simpa using hcc
        have hT0ne : T ≠ t0 := by
          intro he
          have := ChoiceMap_completed_true hI.1 T hTc
          rw [he, hcf0] at this
          cases this
        have hnvis : ∀ x, x ∈ (mark_completed now dcur.length dcur t0 true).2 →
            x = d ∨ x = T → False := by
          intro x hx hxd
          have hreach : CReach db t0 x :=
            CReach_congr
              (fun z => ChoiceMap_parentOf (setCF_id now) (setCF_parentId now) hI.1 z)
              (fun z => ChoiceMap_completed_false_rev hI.1 z)
              (mark_completed_sound now dcur.length dcur t0 true hndcur x hx)
          rcases hxd with rfl | rfl
          · rcases Anc_of_CReach hreach with rfl | hda
            · obtain ⟨q, hq⟩ := Anc_parent_some hAnc
              rw [hpar0] at hq
              cases hq
            · exact hT0ne (top_ancestor_unique hAnc hda hT hpar0)
          · rcases Anc_of_CReach hreach with he | hta
            · exact hT0ne he
            · obtain ⟨q, hq⟩ := Anc_parent_some hta
              rw [hT] at hq
              cases hq
        have hpt := mark_completed_pt now dcur.length dcur t0 true
        refine ⟨ChoiceMap_trans (setCF_idem now) hI.1
          (mark_completed_choice now dcur.length dcur t0 true), ?_, ?_⟩
        · have hnot : d ∉ (mark_completed now dcur.length dcur t0 true).2 :=
            fun hx => hnvis d hx (Or.inl rfl)
          have heq := hpt d
          rw [if_neg hnot] at heq
          simp only [Bool.false_eq_true, if_false]
          rw [heq]
          exact hI.2.1
        · have hnot : T ∉ (mark_completed now dcur.length dcur t0 true).2 :=
            fun hx => hnvis T hx (Or.inr rfl)
          have heq := hpt T
          rw [if_neg hnot] at heq
          simp only [Bool.false_eq_true, if_false]
          rw [heq]
          exact hI.2.2

/-- Witness for `complete_all_skips_completed_top` on `exFrame`: the
completed top-level 1 and its incomplete child 2 are untouched while the
incomplete top-level 3 gets completed. -/
theorem complete_all_skips_completed_top_witness :
    ((exFrame.map (·.id)).Nodup ∧ parentOfId exFrame 1 = none ∧
     completedOf exFrame 1 = some true ∧ Anc exFrame 1 2) ∧
    (findTask (resDb exFrame (complete_all_tasks exFrame exLists 1 1 9)) 2
       = findTask exFrame 2 ∧
     findTask (resDb exFrame (complete_all_tasks exFrame exLists 1 1 9)) 1
       = findTask exFrame 1) :=
  ⟨⟨by decide, by decide, by decide,
    Anc.parent (show parentOfId exFrame 2 = some 1 by decide)⟩,
   complete_all_skips_completed_top exFrame exLists 1 1 9 1 2 (by decide) (by decide)
     (by decide) (Anc.parent (show parentOfId exFrame 2 = some 1 by decide))⟩

/-! ## The ancestor walk of `is_ancestor_of` -/

theorem noAnc_of_parent_none {db : Db} {a x : Nat} (h : parentOfId db x = none) :
    ¬ Anc db a x := by
  intro ha
  obtain ⟨q, hq⟩ := Anc_parent_some ha
  rw [h] at hq
  cases hq

theorem ancN_find {db : Db} {a x n : Nat} (h : AncN db a x n) :
    ∃ xt, findTask db x = some xt := by
  have hp : ∃ q, parentOfId db x = some q := by
    cases h with
    | one h => exact ⟨_, h⟩
    | succ h _ => exact ⟨_, h⟩
  obtain ⟨q, hq⟩ := hp
  rw [parentOfId] at hq
  cases hf : findTask db x with
  | none => rw [hf] at hq; cases hq
  | some xt => exact ⟨xt, rfl⟩

/-- Soundness of the upward walk: a `true` answer means `aid` really is on
the stored parent chain of `b`. -/
theorem is_ancestor_sound :
    ∀ (fuel : Nat) {db : Db} {aid : Nat} {b : Task}, findTask db b.id = some b →
      is_ancestor_of fuel db aid b = true → Anc db aid b.id := by
  intro fuel
  induction fuel with
  | zero => intro db aid b _ h; simp [is_ancestor_of] at h
  | succ f ih =>
    intro db aid b hb h
    rw [is_ancestor_of] at h
    split at h
    · cases h
    · rename_i p hres
      obtain ⟨pid, hpid, hfp⟩ : ∃ pid, b.parentId = some pid ∧ findTask db pid = some p := by
        cases hbp : b.parentId with
        | none => rw [hbp] at hres; cases hres
        | some pid => rw [hbp] at hres; exact ⟨pid, rfl, hres⟩
      have hpar : parentOfId db b.id = some p.id := by
        rw [parentOfId, hb]
        simp [hpid, findTask_id hfp]
      by_cases he : p.id = aid
      · exact Anc.parent (he ▸ hpar)
      · rw [if_neg he] at h
        have hfpp : findTask db p.id = some p := by rw [findTask_id hfp]; exact hfp
        exact Anc.step hpar (ih hfpp h)

/-- Completeness of the upward walk: a chain of length at most `fuel` from
`x` to an existing task `aid` is found. -/
theorem is_ancestor_complete :
    ∀ (fuel : Nat) {db : Db} {aid : Nat} {a : Task}, findTask db aid = some a →
      ∀ {x n : Nat} {xt : Task}, findTask db x = some xt → AncN db aid x n →
        n ≤ fuel → is_ancestor_of fuel db aid xt = true := by
  intro fuel
  induction fuel with
  | zero =>
    intro db aid a _ x n xt _ hn hle
    exact absurd (Nat.le_trans (AncN_pos hn) hle) (by simp)
  | succ f ih =>
    intro db aid a ha x n xt hx hn hle
    cases hn with
    | one hpar =>
      rw [parentOfId, hx] at hpar
      have hxt : xt.parentId = some aid := by simpa using hpar
      rw [is_ancestor_of, hxt]
      simp [ha, findTask_id ha]
    | succ hpar hup =>
      rename_i p m
      rw [parentOfId, hx] at hpar
      have hxt : xt.parentId = some p := by simpa using hpar
      obtain ⟨pt, hpt⟩ := ancN_find hup
      rw [is_ancestor_of, hxt]
      simp only [Option.some_bind, hpt]
      by_cases he : pt.id = aid
      · simp [he]
      · rw [if_neg he]
        have hfpp : findTask db pt.id = some pt := by rw [findTask_id hpt]; exact hpt
        exact ih ha hfpp ((findTask_id hpt).symm ▸ hup) (Nat.le_of_succ_le_succ hle)

/-- C9.  On a table where `tid`'s stored chain is acyclic, the walk
`is_ancestor_of(t, t)` answers `false` for every fuel, because it starts at
`t`'s parent rather than `t` itself; consequently the cycle guard of the
move endpoint does not reject a request whose new parent is the task
itself: the move succeeds and makes the task its own parent — its own
ancestor. -/
theorem is_ancestor_irrefl_self_move (db : Db) (u tid dep : Nat) (t : Task)
    (hnd : (db.map (·.id)).Nodup) (hby : findTaskBy db tid u = some t)
    (hacyc : ¬ Anc db tid tid)
    (hdp : get_depth (db.length + 1) db tid = some dep) (hd5 : dep < 5) :
    (∀ fuel, is_ancestor_of fuel db tid t = false) ∧
    move_task db u tid (some tid)
      = .ok (upd (fun x => { x with parentId := some tid }) db tid) ∧
    Anc (upd (fun x => { x with parentId := some tid }) db tid) tid tid := by
  have htid : t.id = tid := (findTaskBy_id hby).1
  have hft : findTask db tid = some t := by
    rw [← htid]
    exact findTask_nodup hnd (findTaskBy_mem hby)
  have hirr : ∀ fuel, is_ancestor_of fuel db tid t = false := by
    intro fuel
    cases hw : is_ancestor_of fuel db tid t with
    | false => rfl
    | true =>
      have := is_ancestor_sound fuel (htid ▸ hft) hw
      rw [htid] at this
      exact absurd this hacyc
  refine ⟨hirr, ?_, ?_⟩
  · have h5 : ¬ 5 ≤ dep := Nat.not_le_of_lt hd5
    simp [move_task, hby, htid, hirr db.length, hdp, h5]
  · have : parentOfId (upd (fun x => { x with parentId := some tid }) db tid) tid
        = some tid := by
      rw [parentOfId,
        findTask_upd (fun x => { x with parentId := some tid }) (fun x => rfl) db tid tid]
      simp [hft]
    exact Anc.parent this

/-- Witness for `is_ancestor_irrefl_self_move` on the single-task table. -/
theorem is_ancestor_irrefl_self_move_witness :
    ((exSelf.map (·.id)).Nodup ∧
     findTaskBy exSelf 1 1 = some (mkT 1 none false none 1) ∧
     ¬ Anc exSelf 1 1 ∧
     get_depth 2 exSelf 1 = some 0 ∧ 0 < 5) ∧
    ((∀ fuel, is_ancestor_of fuel exSelf 1 (mkT 1 none false none 1) = false) ∧
     move_task exSelf 1 1 (some 1)
       = .ok (upd (fun x => { x with parentId := some 1 }) exSelf 1) ∧
     Anc (upd (fun x => { x with parentId := some 1 }) exSelf 1) 1 1) :=
  ⟨⟨by decide, by decide, noAnc_of_parent_none (by decide), by decide, by decide⟩,
   is_ancestor_irrefl_self_move exSelf 1 1 0 (mkT 1 none false none 1)
     (by decide) (by decide) (noAnc_of_parent_none (by decide)) (by decide) (by decide)⟩

/-! ## The cycle guard of `move_task` -/

/-- C3 (amended).  Reparenting a task `A` under any strict descendant `D`
(one whose stored parent chain reaches `A`) is rejected with a conflict
error and leaves the table unchanged; the guard is however irreflexive, so
reparenting `A` under `A` itself is not rejected and creates a self-cycle
(see the counterexample). -/
theorem move_task_rejects_descendant (db : Db) (u tid npid : Nat) (task np : Task)
    (hnd : (db.map (·.id)).Nodup)
    (ht : findTaskBy db tid u = some task) (hnp : findTaskBy db npid u = some np)
    (hanc : Anc db tid npid)
    (hdep : (get_depth db.length db npid).isSome) :
    move_task db u tid (some npid) = .error ⟨"Cannot move task to descendant", 400⟩ ∧
    resDb db (move_task db u tid (some npid)) = db := by
  have htid : task.id = tid := (findTaskBy_id ht).1
  have hnpid : np.id = npid := (findTaskBy_id hnp).1
  have hft : findTask db tid = some task := by
    rw [← htid]; exact findTask_nodup hnd (findTaskBy_mem ht)
  have hfnp : findTask db npid = some np := by
    rw [← hnpid]; exact findTask_nodup hnd (findTaskBy_mem hnp)
  obtain ⟨n, hn⟩ := Anc_iff_AncN.1 hanc
  have hnle : n ≤ db.length := AncN_le_of_depth hdep hn
  have hwalk : is_ancestor_of db.length db task.id np = true := by
    rw [htid]
    exact is_ancestor_complete db.length hft hfnp hn hnle
  constructor
  · simp [move_task, ht, hnp, hwalk]
  · simp [move_task, ht, hnp, hwalk, resDb]

/-- Witness for `move_task_rejects_descendant`: moving the root 1 of
`exBulk` under its child 2 is rejected. -/
theorem move_task_rejects_descendant_witness :
    ((exBulk.map (·.id)).Nodup ∧
     findTaskBy exBulk 1 1 = some (mkT 1 none false none 1) ∧
     findTaskBy exBulk 2 1 = some (mkT 2 (some 1) true (some 4) 1) ∧
     Anc exBulk 1 2 ∧ (get_depth 2 exBulk 2).isSome) ∧
    (move_task exBulk 1 1 (some 2) = .error ⟨"Cannot move task to descendant", 400⟩ ∧
     resDb exBulk (move_task exBulk 1 1 (some 2)) = exBulk) :=
  ⟨⟨by decide, by decide, by decide,
    Anc.parent (show parentOfId exBulk 2 = some 1 by decide), by decide⟩,
   move_task_rejects_descendant exBulk 1 1 2 (mkT 1 none false none 1)
     (mkT 2 (some 1) true (some 4) 1) (by decide) (by decide) (by decide)
     (Anc.parent (show parentOfId exBulk 2 = some 1 by decide)) (by decide)⟩

/-- Counterexample to C3 as stated: with `D = A` (the claim includes this
case), moving task 1 under itself is not rejected; the move succeeds, sets
`parent_id = 1` on task 1, and so makes the task its own ancestor. -/
theorem move_task_self_cycle_counterexample :
    errOf (move_task exSelf 1 1 (some 1)) = none ∧
    parentOfId (resDb exSelf (move_task exSelf 1 1 (some 1))) 1 = some 1 ∧
    Anc (resDb exSelf (move_task exSelf 1 1 (some 1))) 1 1 :=
  ⟨by decide, by decide,
   Anc.parent (show parentOfId (resDb exSelf (move_task exSelf 1 1 (some 1))) 1 = some 1
     by decide)⟩

/-! ## Depth under insertion -/

theorem findTask_append (db l : Db) (x : Nat) :
    findTask (db ++ l) x = match findTask db x with
      | some t => some t
      | none => findTask l x := by
  induction db with
  | nil => rfl
  | cons a d ih =>
    simp only [findTask, List.cons_append, List.find?] at *
    cases a.id == x
    · exact ih
    · rfl

theorem findTask_append_left {db : Db} {x : Nat} {xt : Task} (l : Db)
    (h : findTask db x = some xt) : findTask (db ++ l) x = some xt := by
  rw [findTask_append, h]

theorem findTask_none_of_fresh {db : Db} {newId : Nat}
    (h : ∀ t ∈ db, t.id ≠ newId) : findTask db newId = none := by
  cases hf : findTask db newId with
  | none => rfl
  | some t => exact absurd (findTask_id hf) (h t (findTask_mem hf))

theorem get_depth_mono : ∀ (fuel : Nat) {db : Db} {x dep : Nat},
    get_depth fuel db x = some dep → get_depth (fuel + 1) db x = some dep := by
  intro fuel
  induction fuel with
  | zero => intro db x dep h; cases h
  | succ f ih =>
    intro db x dep h
    rw [get_depth] at h ⊢
    cases hres : (findTask db x).bind (fun t => t.parentId.bind (findTask db)) with
    | none => rw [hres] at h; exact h
    | some p =>
      rw [hres] at h
      have h' : Option.map (· + 1) (get_depth f db p.id) = some dep := h
      obtain ⟨d0, hd0, hde⟩ := Option.map_eq_some'.1 h'
      show Option.map (· + 1) (get_depth (f + 1) db p.id) = some dep
      rw [ih hd0]
      simp [hde]

theorem get_depth_append (db : Db) (nt : Task)
    (hfid : ∀ t ∈ db, t.id ≠ nt.id) (hfpid : ∀ t ∈ db, t.parentId ≠ some nt.id) :
    ∀ (fuel : Nat) (x : Nat) (xt : Task), findTask db x = some xt →
      get_depth fuel (db ++ [nt]) x = get_depth fuel db x := by
  intro fuel
  induction fuel with
  | zero => intro x xt _; rfl
  | succ f ih =>
    intro x xt hx
    have hx' : findTask (db ++ [nt]) x = some xt := findTask_append_left [nt] hx
    rw [get_depth, get_depth, hx, hx']
    cases hxp : xt.parentId with
    | none => simp [hxp]
    | some pid =>
      cases hfp : findTask db pid with
      | some pt =>
        have hfp' : findTask (db ++ [nt]) pid = some pt := findTask_append_left [nt] hfp
        have hrec : get_depth f (db ++ [nt]) pt.id = get_depth f db pt.id := by
          refine ih pt.id pt ?_
          rw [findTask_id hfp]
          exact hfp
        simp [hxp, hfp, hfp', hrec]
      | none =>
        have hne : pid ≠ nt.id := by
          intro he
          exact hfpid xt (findTask_mem hx) (he ▸ hxp)
        have hnt : findTask [nt] pid = none := by
          simp only [findTask, List.find?]
          have : (nt.id == pid) = false := by simpa using (Ne.symm hne)
          rw [this]
        have hfp' : findTask (db ++ [nt]) pid = none := by
          rw [findTask_append, hfp, hnt]
        simp [hxp, hfp, hfp']

theorem get_depth_append_new (db : Db) (nt : Task) (pid dp fuel : Nat) (parent : Task)
    (hfid : ∀ t ∈ db, t.id ≠ nt.id) (hfpid : ∀ t ∈ db, t.parentId ≠ some nt.id)
    (hntp : nt.parentId = some pid) (hfp : findTask db pid = some parent)
    (hdp : get_depth fuel db pid = some dp) :
    get_depth (fuel + 1) (db ++ [nt]) nt.id = some (dp + 1) := by
  have hnone : findTask db nt.id = none := findTask_none_of_fresh hfid
  have hself : findTask (db ++ [nt]) nt.id = some nt := by
    rw [findTask_append, hnone]
    simp [findTask, List.find?]
  have hfp' : findTask (db ++ [nt]) pid = some parent := findTask_append_left [nt] hfp
  rw [get_depth, hself]
  have hrec : get_depth fuel (db ++ [nt]) parent.id = get_depth fuel db parent.id := by
    refine get_depth_append db nt hfid hfpid fuel parent.id parent ?_
    rw [findTask_id hfp]
    exact hfp
  have hrec2 : get_depth fuel (db ++ [nt]) pid = some dp := by
    have hpe : parent.id = pid := findTask_id hfp
    rw [← hpe, hrec, hpe]
    exact hdp
  simp [hntp, hfp', hrec2, findTask_id hfp]

/-! ## The depth guard of subtask creation -/

/-- C2 (amended).  Creating a subtask is rejected (with an error and no
state change) exactly when the parent's depth is at least 5; under a parent
at depth at most 4 — in particular a parent at depth 4 — the creation
succeeds and the new task sits at the parent's depth plus one, which is at
most 5.  So the permitted depths are 0 through 5, and subtask creation
never produces a task at depth 6 or more; the move endpoint applies the
same `depth < 5` guard to the new parent. -/
theorem create_subtask_depth_guard (db : Db) (u pid newId dp : Nat)
    (req : SubtaskReq) (parent : Task)
    (hnd : (db.map (·.id)).Nodup)
    (hp : findTaskBy db pid u = some parent)
    (ht : strip req.title ≠ "")
    (hdp : get_depth (db.length + 1) db pid = some dp)
    (hfresh : ∀ t ∈ db, t.id ≠ newId ∧ t.parentId ≠ some newId) :
    (5 ≤ dp →
      create_subtask db u pid req newId = .error ⟨"Maximum nesting depth reached", 400⟩ ∧
      resDb db (create_subtask db u pid req newId) = db) ∧
    (dp < 5 →
      create_subtask db u pid req newId
        = .ok (db ++ [{ id := newId, title := strip req.title,
                        description := req.description, completed := false,
                        urgency := req.urgency, completedAt := none, userId := u,
                        listId := parent.listId, parentId := some pid }]) ∧
      get_depth (db.length + 2)
          (db ++ [{ id := newId, title := strip req.title,
                    description := req.description, completed := false,
                    urgency := req.urgency, completedAt := none, userId := u,
                    listId := parent.listId, parentId := some pid }]) newId
        = some (dp + 1) ∧
      dp + 1 ≤ 5) ∧
    (∀ (tid : Nat) (task : Task), findTaskBy db tid u = some task →
      is_ancestor_of db.length db task.id parent = false → 5 ≤ dp →
      move_task db u tid (some pid) = .error ⟨"Maximum nesting depth reached", 400⟩) := by
  have hpid2 : parent.id = pid := (findTaskBy_id hp).1
  refine ⟨?_, ?_, ?_⟩
  · intro hle
    constructor
    · simp [create_subtask, hp, ht, hpid2, hdp, hle]
    · simp [create_subtask, hp, ht, hpid2, hdp, hle, resDb]
  · intro hlt
    have hnle : ¬ 5 ≤ dp := Nat.not_le_of_lt hlt
    refine ⟨?_, ?_, ?_⟩
    · simp [create_subtask, hp, ht, hpid2, hdp, hnle]
    · have hfp : findTask db pid = some parent := by
        rw [← hpid2]
        exact findTask_nodup hnd (findTaskBy_mem hp)
      exact get_depth_append_new db _ pid dp (db.length + 1) parent
        (fun t htm => (hfresh t htm).1) (fun t htm => (hfresh t htm).2) rfl hfp hdp
    · exact Nat.succ_le_of_lt hlt
  · intro tid task htk hna hle
    simp [move_task, htk, hp, hna, hpid2, hdp, hle]

/-- Witness for `create_subtask_depth_guard`: a parent at depth 4 in the
chain `exChain5` — the creation succeeds and yields a task at depth 5. -/
theorem create_subtask_depth_guard_witness :
    ((exChain5.map (·.id)).Nodup ∧
     findTaskBy exChain5 5 1 = some (mkT 5 (some 4) false none 1) ∧
     strip "a" ≠ "" ∧
     get_depth 6 exChain5 5 = some 4 ∧
     ∀ t ∈ exChain5, t.id ≠ 6 ∧ t.parentId ≠ some 6) ∧
    ((5 ≤ 4 →
       create_subtask exChain5 1 5 ⟨"a", "", "medium"⟩ 6
         = .error ⟨"Maximum nesting depth reached", 400⟩ ∧
       resDb exChain5 (create_subtask exChain5 1 5 ⟨"a", "", "medium"⟩ 6) = exChain5) ∧
     (4 < 5 →
       create_subtask exChain5 1 5 ⟨"a", "", "medium"⟩ 6
         = .ok (exChain5 ++ [{ id := 6, title := strip "a", description := "",
                               completed := false, urgency := "medium",
                               completedAt := none, userId := 1,
                               listId := (mkT 5 (some 4) false none 1).listId,
                               parentId := some 5 }]) ∧
       get_depth 7 (exChain5 ++ [{ id := 6, title := strip "a", description := "",
                                   completed := false, urgency := "medium",
                                   completedAt := none, userId := 1,
                                   listId := (mkT 5 (some 4) false none 1).listId,
                                   parentId := some 5 }]) 6 = some 5 ∧
       (4 : Nat) + 1 ≤ 5) ∧
     (∀ (tid : Nat) (task : Task), findTaskBy exChain5 tid 1 = some task →
       is_ancestor_of exChain5.length exChain5 task.id (mkT 5 (some 4) false none 1) = false →
       5 ≤ 4 →
       move_task exChain5 1 tid (some 5)
         = .error ⟨"Maximum nesting depth reached", 400⟩)) :=
  ⟨⟨by decide, by decide, by decide, by decide, by decide⟩,
   create_subtask_depth_guard exChain5 1 5 6 4 ⟨"a", "", "medium"⟩
     (mkT 5 (some 4) false none 1) (by decide) (by decide) (by decide)
     (by decide) (by decide)⟩

/-- Counterexample to C2 as stated: the parent task 5 of `exChain5` is at
depth 4, yet creating a subtask under it is not rejected — it succeeds and
the created task 6 is at depth 5. -/
theorem create_subtask_depth4_counterexample :
    get_depth 6 exChain5 5 = some 4 ∧
    errOf (create_subtask exChain5 1 5 ⟨"a", "", "medium"⟩ 6) = none ∧
    get_depth 7 (resDb exChain5 (create_subtask exChain5 1 5 ⟨"a", "", "medium"⟩ 6)) 6
      = some 5 := by
  decide

/-! ## What `create_task` checks — and what it does not -/

/-- C4 (amended).  The dedicated subtask endpoint inherits the parent's
`list_id` and rejects a parent at depth ≥ 5; the general create-task
endpoint, by contrast, performs no parent validation at all when a
`parent_id` is supplied: with a valid title and an owned list it always
succeeds, storing the caller-supplied `list_id` and `parent_id` verbatim,
with no depth check — so a subtask created through it can sit in a
different list than its parent and at any depth. -/
theorem create_task_trusts_caller (db : Db) (ls : List TodoList) (u newId : Nat)
    (req : TaskReq) (l : TodoList)
    (ht : strip req.title ≠ "") (hl : findListBy ls req.listId u = some l) :
    create_task db ls u req newId
      = .ok (db ++ [{ id := newId, title := strip req.title,
                      description := req.description, completed := false,
                      urgency := req.urgency, completedAt := none, userId := u,
                      listId := req.listId, parentId := req.parentId }]) ∧
    (∀ (pid nid2 : Nat) (parent : Task) (req2 : SubtaskReq) (db2 : Db),
      findTaskBy db pid u = some parent →
      create_subtask db u pid req2 nid2 = Except.ok db2 →
      ∃ nt, db2 = db ++ [nt] ∧ nt.listId = parent.listId ∧ nt.parentId = some pid) := by
  constructor
  · simp [create_task, ht, hl]
  · intro pid nid2 parent req2 db2 hp hok
    simp only [create_subtask, hp] at hok
    split at hok
    · cases hok
    · split at hok
      · cases hok
      · split at hok
        · cases hok
        · refine ⟨{ id := nid2, title := strip req2.title,
                    description := req2.description, completed := false,
                    urgency := req2.urgency, completedAt := none, userId := u,
                    listId := parent.listId, parentId := some pid }, ?_, rfl, rfl⟩
          exact (Except.ok.inj hok).symm

/-- Witness for `create_task_trusts_caller`: a request that names list 2
and the depth-5 task 6 of `exDeep6` as parent. -/
theorem create_task_trusts_caller_witness :
    (strip "x" ≠ "" ∧ findListBy exLists 2 1 = some ⟨2, "b", 1⟩) ∧
    (create_task exDeep6 exLists 1 ⟨"x", 2, "", "medium", some 6⟩ 7
       = .ok (exDeep6 ++ [{ id := 7, title := strip "x", description := "",
                            completed := false, urgency := "medium",
                            completedAt := none, userId := 1, listId := 2,
                            parentId := some 6 }]) ∧
     (∀ (pid nid2 : Nat) (parent : Task) (req2 : SubtaskReq) (db2 : Db),
       findTaskBy exDeep6 pid 1 = some parent →
       create_subtask exDeep6 1 pid req2 nid2 = Except.ok db2 →
       ∃ nt, db2 = exDeep6 ++ [nt] ∧ nt.listId = parent.listId ∧
         nt.parentId = some pid)) :=
  ⟨⟨by decide, by decide⟩,
   create_task_trusts_caller exDeep6 exLists 1 7 ⟨"x", 2, "", "medium", some 6⟩
     ⟨2, "b", 1⟩ (by decide) (by decide)⟩

/-- Counterexample to C4 as stated: task 6 of `exDeep6` is at depth 5 (so a
child would be at depth 6 ≥ maxDepth) and lives in list 1, yet the
create-task request naming it as parent with `list_id = 2` is not rejected,
and the created task keeps the caller's `list_id = 2` instead of
inheriting the parent's list 1. -/
theorem create_task_no_parent_checks_counterexample :
    get_depth 7 exDeep6 6 = some 5 ∧
    (findTask exDeep6 6).map (·.listId) = some 1 ∧
    errOf (create_task exDeep6 exLists 1 ⟨"x", 2, "", "medium", some 6⟩ 7) = none ∧
    (findTask (resDb exDeep6 (create_task exDeep6 exLists 1 ⟨"x", 2, "", "medium", some 6⟩ 7)) 7).map
        (fun t => (t.listId, t.parentId)) = some (2, some 6) := by
  decide

/-! ## Moving a subtree to another list -/

theorem setLF_id (nl : Nat) (t : Task) : (setLF nl t).id = t.id := rfl

theorem setLF_parentId (nl : Nat) (t : Task) : (setLF nl t).parentId = t.parentId := rfl

theorem setLF_idem (nl : Nat) (t : Task) : setLF nl (setLF nl t) = setLF nl t := rfl

theorem updD_pt (nl : Nat) : ∀ (fuel : Nat) (db : Db) (tid : Nat),
    Pt (setLF nl) db (update_descendants_list_id nl fuel db tid).1
      (update_descendants_list_id nl fuel db tid).2 := by
  intro fuel
  induction fuel with
  | zero => intro db tid; exact Pt_upd (setLF nl) (setLF_id nl) db tid
  | succ f ih =>
    intro db tid
    simp only [update_descendants_list_id]
    apply foldl_pt (setLF_idem nl)
    · intro p cid
      exact ⟨(update_descendants_list_id nl f p.1 cid).2, ih p.1 cid, rfl⟩
    · exact Pt_upd (setLF nl) (setLF_id nl) db tid

theorem updD_choice (nl : Nat) : ∀ (fuel : Nat) (db : Db) (tid : Nat),
    ChoiceMap (setLF nl) db (update_descendants_list_id nl fuel db tid).1 := by
  intro fuel
  induction fuel with
  | zero => intro db tid; exact ChoiceMap_upd (setLF nl) db tid
  | succ f ih =>
    intro db tid
    simp only [update_descendants_list_id]
    apply foldl_choice (setLF_idem nl)
    · intro p cid
      exact ih p.1 cid
    · exact ChoiceMap_upd (setLF nl) db tid

theorem updD_root_mem (nl fuel : Nat) (db : Db) (tid : Nat) :
    tid ∈ (update_descendants_list_id nl fuel db tid).2 := by
  cases fuel with
  | zero => simp [update_descendants_list_id]
  | succ f =>
    simp only [update_descendants_list_id]
    apply foldl_snd_sub
    · intro p cid
      exact ⟨(update_descendants_list_id nl f p.1 cid).2, rfl⟩
    · simp

theorem foldl_hit (step : Db × List Nat → Nat → Db × List Nat)
    (happ : ∀ p c, ∃ v, (step p c).2 = p.2 ++ v)
    (P : Db → Prop) (hP : ∀ p c, P p.1 → P (step p c).1)
    (x c0 : Nat) (hhit : ∀ p, P p.1 → x ∈ (step p c0).2) :
    ∀ (l : List Nat) (p : Db × List Nat), c0 ∈ l → P p.1 → x ∈ (l.foldl step p).2 := by
  intro l
  induction l with
  | nil => intro p hc; cases hc
  | cons c t ih =>
    intro p hc hPp
    rcases List.mem_cons.1 hc with rfl | hmem
    · exact foldl_snd_sub step happ t (step p c0) x (hhit p hPp)
    · exact ih (step p c) hmem (hP p c hPp)

theorem updD_sound (nl : Nat) : ∀ (fuel : Nat) (db : Db) (tid : Nat),
    (db.map (·.id)).Nodup →
    ∀ x ∈ (update_descendants_list_id nl fuel db tid).2, x = tid ∨ Anc db tid x := by
  intro fuel
  induction fuel with
  | zero =>
    intro db tid _ x hx
    simp [update_descendants_list_id] at hx
    exact Or.inl hx
  | succ f ih =>
    intro db tid hnd x hx
    simp only [update_descendants_list_id] at hx
    refine (foldl_inv_mem _
      (fun p => ChoiceMap (setLF nl) db p.1 ∧ ∀ y ∈ p.2, y = tid ∨ Anc db tid y)
      (childIds (upd (setLF nl) db tid) tid) ?_ (upd (setLF nl) db tid, [tid]) ?_).2 x hx
    · intro p cid hcid hI
      refine ⟨ChoiceMap_trans (setLF_idem nl) hI.1 (updD_choice nl f p.1 cid), ?_⟩
      intro y hy
      rcases List.mem_append.1 hy with hy | hy
      · exact hI.2 y hy
      · have hciddb : cid ∈ childIds db tid := by
          rwa [ChoiceMap_childIds (setLF_id nl) (setLF_parentId nl)
            (ChoiceMap_upd (setLF nl) db tid) tid] at hcid
        obtain ⟨t1, ht1, hti, htp⟩ := mem_childIds.1 hciddb
        have hpar : Anc db tid cid := by
          refine Anc.parent ?_
          rw [parentOfId, ← hti, findTask_nodup hnd ht1]
          simp [htp]
        rcases ih p.1 cid (ChoiceMap_nodup (setLF_id nl) hI.1 hnd) y hy with he | ha
        · exact Or.inr (he ▸ hpar)
        · have hadb : Anc db cid y :=
            Anc_congr
              (fun z => ChoiceMap_parentOf (setLF_id nl) (setLF_parentId nl) hI.1 z) ha
          exact Or.inr (Anc_trans hadb hpar)
    · refine ⟨ChoiceMap_upd (setLF nl) db tid, ?_⟩
      intro y hy
      simp at hy
      exact Or.inl hy

theorem updD_complete (nl : Nat) : ∀ (fuel : Nat) (db : Db) (tid : Nat),
    (db.map (·.id)).Nodup →
    ∀ x n, AncN db tid x n → n ≤ fuel →
      x ∈ (update_descendants_list_id nl fuel db tid).2 := by
  intro fuel
  induction fuel with
  | zero =>
    intro db tid _ x n hn hle
    exact absurd (Nat.le_trans (AncN_pos hn) hle) (by simp)
  | succ f ih =>
    intro db tid hnd x n hn hle
    have hchild : ∀ c, parentOfId db c = some tid → c ∈ childIds (upd (setLF nl) db tid) tid := by
      intro c hc
      rw [ChoiceMap_childIds (setLF_id nl) (setLF_parentId nl)
        (ChoiceMap_upd (setLF nl) db tid) tid]
      rw [parentOfId] at hc
      cases hf : findTask db c with
      | none => rw [hf] at hc; cases hc
      | some ct =>
        rw [hf] at hc
        refine mem_childIds.2 ⟨ct, findTask_mem hf, findTask_id hf, ?_⟩
        simpa using hc
    simp only [update_descendants_list_id]
    rcases AncN_top hn with ⟨hn1, hpar⟩ | ⟨c, m, hne, hc, hcx⟩
    · refine foldl_hit _ ?_ (fun _ => True) (fun _ _ _ => trivial) x x
        (fun p _ => ?_) _ _ (hchild x hpar) trivial
      · intro p c
        exact ⟨(update_descendants_list_id nl f p.1 c).2, rfl⟩
      · show x ∈ p.2 ++ (update_descendants_list_id nl f p.1 x).2
        exact List.mem_append_right _ (updD_root_mem nl f p.1 x)
    · have hmle : m ≤ f := by omega
      refine foldl_hit _ ?_ (fun d => ChoiceMap (setLF nl) db d) ?_ x c
        (fun p hPp => ?_) _ _ (hchild c hc) (ChoiceMap_upd (setLF nl) db tid)
      · intro p c2
        exact ⟨(update_descendants_list_id nl f p.1 c2).2, rfl⟩
      · intro p c2 hPp
        exact ChoiceMap_trans (setLF_idem nl) hPp (updD_choice nl f p.1 c2)
      · show x ∈ p.2 ++ (update_descendants_list_id nl f p.1 c).2
        refine List.mem_append_right _ ?_
        refine ih p.1 c (ChoiceMap_nodup (setLF_id nl) hPp hnd) x m ?_ hmle
        exact AncN_congr
          (fun z => (ChoiceMap_parentOf (setLF_id nl) (setLF_parentId nl) hPp z).symm) hcx

/-- C8.  `moveSubtreeToList` succeeds only for a top-level task (a task
with a parent is rejected with no state change); on success it sets
`list_id = newListId` on the task and on every task whose stored parent
chain reaches it (its descendants), touching no other field of those rows
and no other row of the table. -/
theorem move_to_list_subtree (db : Db) (ls : List TodoList) (u tid nl : Nat)
    (task : Task) (l : TodoList)
    (hnd : (db.map (·.id)).Nodup)
    (ht : findTaskBy db tid u = some task)
    (hdep : ∀ t ∈ db, (get_depth db.length db t.id).isSome) :
    (task.parentId ≠ none →
      move_task_to_list db ls u tid nl
        = .error ⟨"Only top-level tasks can be moved between lists", 400⟩ ∧
      resDb db (move_task_to_list db ls u tid nl) = db) ∧
    (task.parentId = none → findListBy ls nl u = some l →
      move_task_to_list db ls u tid nl
        = .ok (update_descendants_list_id nl db.length db tid).1 ∧
      (∀ x, (x = tid ∨ Anc db tid x) →
        findTask (update_descendants_list_id nl db.length db tid).1 x
          = (findTask db x).map (setLF nl)) ∧
      (∀ x, x ≠ tid → ¬ Anc db tid x →
        findTask (update_descendants_list_id nl db.length db tid).1 x = findTask db x)) := by
  constructor
  · intro hpn
    constructor
    · simp [move_task_to_list, ht, hpn]
    · simp [move_task_to_list, ht, hpn, resDb]
  · intro hpn hl
    refine ⟨by simp [move_task_to_list, ht, hpn, hl], ?_, ?_⟩
    · intro x hx
      have hvis : x ∈ (update_descendants_list_id nl db.length db tid).2 := by
        rcases hx with rfl | ha
        · exact updD_root_mem nl db.length db x
        · obtain ⟨n, hn⟩ := Anc_iff_AncN.1 ha
          obtain ⟨xt, hxt⟩ := ancN_find hn
          have hiso : (get_depth db.length db x).isSome := by
            have := hdep xt (findTask_mem hxt)
            rwa [findTask_id hxt] at this
          exact updD_complete nl db.length db tid hnd x n hn (AncN_le_of_depth hiso hn)
      have := updD_pt nl db.length db tid x
      rwa [if_pos hvis] at this
    · intro x hx1 hx2
      have hvis : x ∉ (update_descendants_list_id nl db.length db tid).2 := by
        intro hm
        rcases updD_sound nl db.length db tid hnd x hm with he | ha
        · exact hx1 he
        · exact hx2 ha
      have := updD_pt nl db.length db tid x
      rwa [if_neg hvis] at this

/-- Witness for `move_to_list_subtree`: moving the top-level task 1 of
`exTwoKids` (children 2 and 3; unrelated task 4) to list 2. -/
theorem move_to_list_subtree_witness :
    ((exTwoKids.map (·.id)).Nodup ∧
     findTaskBy exTwoKids 1 1 = some (mkT 1 none false none 1) ∧
     (∀ t ∈ exTwoKids, (get_depth 4 exTwoKids t.id).isSome)) ∧
    (((mkT 1 none false none 1).parentId ≠ none →
       move_task_to_list exTwoKids exLists 1 1 2
         = .error ⟨"Only top-level tasks can be moved between lists", 400⟩ ∧
       resDb exTwoKids (move_task_to_list exTwoKids exLists 1 1 2) = exTwoKids) ∧
     ((mkT 1 none false none 1).parentId = none → findListBy exLists 2 1 = some ⟨2, "b", 1⟩ →
       move_task_to_list exTwoKids exLists 1 1 2
         = .ok (update_descendants_list_id 2 exTwoKids.length exTwoKids 1).1 ∧
       (∀ x, (x = 1 ∨ Anc exTwoKids 1 x) →
         findTask (update_descendants_list_id 2 exTwoKids.length exTwoKids 1).1 x
           = (findTask exTwoKids x).map (setLF 2)) ∧
       (∀ x, x ≠ 1 → ¬ Anc exTwoKids 1 x →
         findTask (update_descendants_list_id 2 exTwoKids.length exTwoKids 1).1 x
           = findTask exTwoKids x))) :=
  ⟨⟨by decide, by decide, by decide⟩,
   move_to_list_subtree exTwoKids exLists 1 1 2 (mkT 1 none false none 1) ⟨2, "b", 1⟩
     (by decide) (by decide) (by decide)⟩

end Todo
